import Mathlib

/-!
Verification of the clsync settings-synchronization engine
(`src/repo-sync.js`): item scanner, scope mover (promote/demote),
and the GitHub pull client.

The JavaScript functions are shallowly embedded as executable Lean
definitions.  Strings are manipulated through their character lists so
that every definition reduces inside the kernel.  Filesystem state is
modelled explicitly: a scope root is a record of the three settings
directories, and the repository cache is a flat path-indexed store.
-/

namespace Clsync

/-! ## Generic list/string helpers used by the embedding -/

/-- Last-write-wins association-list update, mirroring JS object
property assignment `obj[k] = v` (the key keeps its first position). -/
def setKV {α : Type} (l : List (String × α)) (k : String) (v : α) : List (String × α) :=
  match l with
  | [] => [(k, v)]
  | (k0, v0) :: rest => if k0 = k then (k0, v) :: rest else (k0, v0) :: setKV rest k v

/-- Association-list lookup, mirroring JS object property read. -/
def lookupKV {α : Type} (l : List (String × α)) (k : String) : Option α :=
  match l with
  | [] => none
  | (k0, v0) :: rest => if k0 = k then some v0 else lookupKV rest k

/-- Character-list version of JS `String.prototype.startsWith`. -/
def startsWithCL (pat s : List Char) : Bool := pat.isPrefixOf s

/-- Character-list version of JS `String.prototype.endsWith`. -/
def endsWithCL (pat s : List Char) : Bool := pat.isSuffixOf s

def strStartsWith (s pat : String) : Bool := startsWithCL pat.toList s.toList

def strEndsWith (s pat : String) : Bool := endsWithCL pat.toList s.toList

/-- Replace the first occurrence of `pat` in the list (JS
`String.prototype.replace` with a string pattern replaces only the
first occurrence).  `pat` is assumed nonempty by the callers. -/
def replaceFirstCL (pat : List Char) : List Char → List Char
  | [] => []
  | c :: rest =>
    if pat.isPrefixOf (c :: rest) then (c :: rest).drop pat.length
    else c :: replaceFirstCL pat rest

/-- JS `s.replace(pat, "")` for a string pattern: removes the first
occurrence of `pat` from `s`. -/
def jsReplaceFirst (s pat : String) : String :=
  (replaceFirstCL pat.toList s.toList).asString

/-- The characters matched by JavaScript's `\s` class (the ones that
can realistically occur in settings files, plus the full Unicode white
space set used by the spec of `\s` and `trim`). -/
def jsWhitespace (c : Char) : Bool :=
  c = ' ' || c = '\t' || c = '\n' || c = '\r' ||
  c.toNat = 0x0b || c.toNat = 0x0c || c.toNat = 0xa0 || c.toNat = 0x1680 ||
  (0x2000 ≤ c.toNat && c.toNat ≤ 0x200A) ||
  c.toNat = 0x2028 || c.toNat = 0x2029 || c.toNat = 0x202f || c.toNat = 0x205f ||
  c.toNat = 0x3000 || c.toNat = 0xfeff

/-- JS `String.prototype.trim`: strips `\s` characters at both ends. -/
def jsTrimCL (s : List Char) : List Char :=
  ((s.dropWhile jsWhitespace).reverse.dropWhile jsWhitespace).reverse

/-- The characters matched by JavaScript's `\w` class. -/
def jsWordChar (c : Char) : Bool :=
  ('a' ≤ c && c ≤ 'z') || ('A' ≤ c && c ≤ 'Z') || ('0' ≤ c && c ≤ '9') || c = '_'

/-- Characters strictly before the first occurrence of `pat`
(`none` when `pat` does not occur).  Used for the lazy group of the
frontmatter regular expression. -/
def takeUntilSub (pat : List Char) : List Char → Option (List Char)
  | [] => none
  | c :: rest =>
    if pat.isPrefixOf (c :: rest) then some []
    else (takeUntilSub pat rest).map (c :: ·)

/-- Split a character list on a separator character, mirroring JS
`String.prototype.split` with a one-character separator. -/
def splitOnCharCL (sep : Char) : List Char → List (List Char)
  | [] => [[]]
  | c :: rest =>
    if c = sep then [] :: splitOnCharCL sep rest
    else
      match splitOnCharCL sep rest with
      | [] => [[c]]
      | l :: ls => (c :: l) :: ls

/-- Does `pat` occur anywhere in the list? -/
def containsSub (pat : List Char) : List Char → Bool
  | [] => pat.isPrefixOf []
  | c :: rest => pat.isPrefixOf (c :: rest) || containsSub pat rest

/-! ## `parseMetadata` (repo-sync.js lines 2253–2262)

The JS body matches the anchored lazy regex `^---\n([\s\S]*?)\n---`
against the content; on a match it walks the lines of the captured
group, and every line matching `^(\w+):\s*(.+)$` stores
`metadata[m[1]] = m[2].trim()`.

The anchored lazy regex matches iff the content starts with the four
characters dash, dash, dash, newline and the remainder contains the
four characters newline, dash, dash, dash; the group is everything before
the first such occurrence.  A line matches `/^(\w+):\s*(.+)$/` iff its
maximal leading `\w+` run is nonempty, is followed by `:`, and at
least one character follows the colon; the stored value is then the
`\s`-trimmed remainder (when the remainder is all whitespace the lazy
backtracking leaves a single whitespace character, which trims to
`""`, i.e. also the trimmed remainder). -/

def matchMetaLine (line : List Char) : Option (String × String) :=
  let word := line.takeWhile jsWordChar
  let rest := line.dropWhile jsWordChar
  match word, rest with
  | [], _ => none
  | _, ':' :: r => if r.isEmpty then none else some (word.asString, (jsTrimCL r).asString)
  | _, _ => none

def parseMetadata (content : String) : List (String × String) :=
  let cs := content.toList
  if startsWithCL ['-', '-', '-', '\n'] cs then
    match takeUntilSub ['\n', '-', '-', '-'] (cs.drop 4) with
    | none => []
    | some body =>
      (splitOnCharCL '\n' body).foldl
        (fun acc line =>
          match matchMetaLine line with
          | some (k, v) => setKV acc k v
          | none => acc) []
  else []

/-! ## Filesystem model for scope roots -/

/-- A directory entry as the scanner sees it: `stat` distinguishes
files from directories; a directory carries its (recursively copyable)
contents as relative-path/content pairs. -/
inductive FsNode where
  | file (content : String)
  | dir (files : List (String × String))
deriving DecidableEq, Repr

structure FsEntry where
  name : String
  node : FsNode
  mtime : Nat
deriving DecidableEq, Repr

/-- A scope root (`~/.claude`, `.claude`, the staging root or a cached
repository): the three fixed settings directories, `none` when
`readdir` on the directory fails (missing directory). -/
structure Root where
  skills : Option (List FsEntry)
  agents : Option (List FsEntry)
  outputStyles : Option (List FsEntry)
deriving DecidableEq, Repr

def SETTINGS_DIRS : List String := ["skills", "agents", "output-styles"]

def Root.get (r : Root) (d : String) : Option (List FsEntry) :=
  if d = "skills" then r.skills
  else if d = "agents" then r.agents
  else if d = "output-styles" then r.outputStyles
  else none

def Root.set (r : Root) (d : String) (es : List FsEntry) : Root :=
  if d = "skills" then { r with skills := some es }
  else if d = "agents" then { r with agents := some es }
  else if d = "output-styles" then { r with outputStyles := some es }
  else r

def Root.entries (r : Root) (d : String) : List FsEntry := (r.get d).getD []

def emptyRoot : Root := ⟨some [], some [], some []⟩

/-! ## The item model and `scanItems` (repo-sync.js lines 2267–2310) -/

/-- The scanned item object.  The JS object is built as
`{type, name, path, ...metadata, updated_at}`: a `type`, `name` or
`path` key in the parsed frontmatter *overrides* the derived field
(spread comes later), while `updated_at` is assigned after the spread
and therefore always holds the file mtime.  `metadata` records the
parsed frontmatter pairs. -/
structure Item where
  type : String
  name : String
  path : String
  metadata : List (String × String)
  updated_at : Nat
deriving DecidableEq, Repr

/-- Build the item object: derived fields, overridden by same-named
frontmatter keys. -/
def mkItemObj (dType dName dPath : String) (md : List (String × String)) (mtime : Nat) : Item :=
  { type := (lookupKV md "type").getD dType
    name := (lookupKV md "name").getD dName
    path := (lookupKV md "path").getD dPath
    metadata := md
    updated_at := mtime }

/-- One iteration of the `scanItems` entry loop for directory `d`:

* in `skills`, a subdirectory containing a readable `SKILL.md` yields a
  skill item (unreadable/missing `SKILL.md` is skipped by the inner
  `catch`);
* any file ending in `.md` yields an `agent` (in `agents`) or
  `output-style` (any other directory, including `skills`) item whose
  name is the entry name with the first `".md"` occurrence removed
  (`entry.replace(".md", "")`);
* everything else is skipped. -/
def scanEntry (d : String) (e : FsEntry) : Option Item :=
  match e.node with
  | .dir files =>
    if d = "skills" then
      match lookupKV files "SKILL.md" with
      | some content =>
        some (mkItemObj "skill" e.name ("skills/" ++ e.name) (parseMetadata content) e.mtime)
      | none => none
    else none
  | .file content =>
    if strEndsWith e.name ".md" then
      some (mkItemObj (if d = "agents" then "agent" else "output-style")
        (jsReplaceFirst e.name ".md")
        (d ++ "/" ++ e.name)
        (parseMetadata content) e.mtime)
    else none

def scanDir (d : String) (es : List FsEntry) : List Item := es.filterMap (scanEntry d)

/-- `scanItems(baseDir)`: loop over the three settings directories in
order, a failing `readdir` contributing zero items. -/
def scanItems (r : Root) : List Item :=
  scanDir "skills" (r.skills.getD []) ++
  scanDir "agents" (r.agents.getD []) ++
  scanDir "output-styles" (r.outputStyles.getD [])

/-! ## Scope mover: promote / demote (repo-sync.js lines 2805–2964) -/

/-- `itemExistsInTarget(name, type, targetDir)`: scan the target root
and return the first item with the same name and type (repo-sync.js
lines 2808–2811). -/
def itemExistsInTarget (name type : String) (target : Root) : Option Item :=
  (scanItems target).find? (fun i => i.name == name && i.type == type)

/-- Loop body of `getUniqueName` (repo-sync.js lines 2816–2826): while
the current candidate collides, move to `name ++ "-" ++ counter` and
bump the counter.  The JS `while` loop is given the fuel
`(scanItems target).length + 1`, which is enough for it to reach a free
candidate (the candidates are pairwise distinct, so at most one per
scanned item can collide); the target root is unchanged between the
rescans of the loop condition, so the item list is computed once. -/
def getUniqueNameGo (name type : String) (target : Root) :
    Nat → Nat → String → String
  | 0, _, cur => cur
  | fuel + 1, counter, cur =>
    if (itemExistsInTarget cur type target).isSome then
      getUniqueNameGo name type target fuel (counter + 1)
        (name ++ "-" ++ Nat.repr counter)
    else cur

def getUniqueName (name type : String) (target : Root) : String :=
  getUniqueNameGo name type target ((scanItems target).length + 1) 1 name

/-- The candidate tried by `getUniqueName` after `j` collisions:
the original name, then `name-1`, `name-2`, … -/
def nthCandidate (name : String) : Nat → String
  | 0 => name
  | j + 1 => name ++ "-" ++ Nat.repr (j + 1)

/-- Split a one-level relative item path `dir/entry` (the shape every
derived `item.path` has). -/
def splitRelPath (p : String) : Option (String × String) :=
  match splitOnCharCL '/' p.toList with
  | [d, f] => some (d.asString, f.asString)
  | _ => none

/-- `readFile`/`cp` source resolution for `join(rootDir, item.path)`:
the first entry of the addressed settings directory carrying the
addressed file name, `none` when the path does not resolve (ENOENT). -/
def readNode (r : Root) (p : String) : Option FsNode :=
  match splitRelPath p with
  | some (d, f) => (((r.get d).getD []).find? (fun e => e.name == f)).map (·.node)
  | none => none

/-- Replace the entry of the same name, or append.  This models
`writeFile` on an existing file and `cp` onto the target path (for the
directory-onto-existing-directory case Node's `cp` would merge the two
trees; that case is reached by none of the verified operations, whose
hypotheses rule out a pre-existing same-named target entry). -/
def putEntryList (es : List FsEntry) (e : FsEntry) : List FsEntry :=
  match es with
  | [] => [e]
  | x :: xs => if x.name == e.name then e :: xs else x :: putEntryList xs e

/-- `mkdir(dirname(target), {recursive:true})` followed by the write:
the settings directory is created when missing. -/
def Root.put (r : Root) (d : String) (e : FsEntry) : Root :=
  r.set d (putEntryList (r.entries d) e)

/-- `rm(path, {recursive:true, force:true})`: drops the addressed
entry; a missing directory or entry is a silent no-op (`force`), and no
directory is created. -/
def Root.removeName (r : Root) (d f : String) : Root :=
  match r.get d with
  | none => r
  | some es => r.set d (es.filter (fun e => !(e.name == f)))

def removeAtPath (r : Root) (p : String) : Root :=
  match splitRelPath p with
  | some (d, f) => r.removeName d f
  | none => r

/-- JS truthiness of the `rename` option (`undefined` and `""` are
falsy). -/
def optTruthy : Option String → Bool
  | some s => !(s == "")
  | none => false

/-- JS `rename || itemName`. -/
def optOrDefault (o : Option String) (d : String) : String :=
  match o with
  | some s => if s == "" then d else s
  | none => d

def promoteConflictMsg (itemName suggested : String) : String :=
  "\"" ++ itemName ++ "\" already exists in ~/.claude.\n\n" ++
  "Options:\n" ++
  "  --force    Overwrite existing\n" ++
  "  --rename   Rename to avoid conflict (suggested: \"" ++ suggested ++ "\")"

def demoteConflictMsg (itemName suggested : String) : String :=
  "\"" ++ itemName ++ "\" already exists in .claude.\n\n" ++
  "Options:\n" ++
  "  --force    Overwrite existing\n" ++
  "  --rename   Rename to avoid conflict (suggested: \"" ++ suggested ++ "\")"

structure MoveResult where
  item : Item
  fromDir : String
  toDir : String
  originalName : String
  newName : String
  renamed : Bool
deriving DecidableEq, Repr

/-- The two scope roots promote/demote move between. -/
structure ScopeState where
  project : Root
  user : Root
deriving DecidableEq, Repr

/-- `promoteItem(itemName, {rename, force})` (repo-sync.js lines
2832–2893): locate the item by name in the project root, check the
name+type collision in the user root, and either throw the conflict
message carrying the `getUniqueName` suggestion, or copy
(`cp`/`readFile`+`writeFile`) to the type-derived target path in the
user root and remove the source.  `now` is the mtime the copied entry
receives. -/
def promoteItem (itemName : String) (rename : Option String) (force : Bool)
    (st : ScopeState) (now : Nat) : Except String (MoveResult × ScopeState) :=
  match (scanItems st.project).find? (fun i => i.name == itemName) with
  | none => .error ("Item \"" ++ itemName ++ "\" not found in project (.claude)")
  | some item =>
    let existingInUser := itemExistsInTarget itemName item.type st.user
    let targetName := optOrDefault rename itemName
    if existingInUser.isSome && !force && !(optTruthy rename) then
      .error (promoteConflictMsg itemName (getUniqueName itemName item.type st.user))
    else
      let targetDirName := if item.type == "skill" then "skills"
        else if item.type == "agent" then "agents"
        else "output-styles"
      let targetEntryName := if item.type == "skill" then targetName
        else targetName ++ ".md"
      match readNode st.project item.path with
      | none => .error "ENOENT: no such file or directory"
      | some node =>
        if item.type == "skill" then
          .ok ({ item := item, fromDir := ".claude", toDir := "~/.claude",
                 originalName := itemName, newName := targetName,
                 renamed := !(targetName == itemName) },
               { project := removeAtPath st.project item.path,
                 user := st.user.put targetDirName ⟨targetEntryName, node, now⟩ })
        else
          match node with
          | .file content =>
            .ok ({ item := item, fromDir := ".claude", toDir := "~/.claude",
                   originalName := itemName, newName := targetName,
                   renamed := !(targetName == itemName) },
                 { project := removeAtPath st.project item.path,
                   user := st.user.put targetDirName ⟨targetEntryName, .file content, now⟩ })
          | .dir _ => .error "EISDIR: illegal operation on a directory, read"

/-- `demoteItem(itemName, {rename, force})` (repo-sync.js lines
2899–2964): the symmetric move from the user root to the project
root. -/
def demoteItem (itemName : String) (rename : Option String) (force : Bool)
    (st : ScopeState) (now : Nat) : Except String (MoveResult × ScopeState) :=
  match (scanItems st.user).find? (fun i => i.name == itemName) with
  | none => .error ("Item \"" ++ itemName ++ "\" not found in user (~/.claude)")
  | some item =>
    let existingInProject := itemExistsInTarget itemName item.type st.project
    let targetName := optOrDefault rename itemName
    if existingInProject.isSome && !force && !(optTruthy rename) then
      .error (demoteConflictMsg itemName (getUniqueName itemName item.type st.project))
    else
      let targetDirName := if item.type == "skill" then "skills"
        else if item.type == "agent" then "agents"
        else "output-styles"
      let targetEntryName := if item.type == "skill" then targetName
        else targetName ++ ".md"
      match readNode st.user item.path with
      | none => .error "ENOENT: no such file or directory"
      | some node =>
        if item.type == "skill" then
          .ok ({ item := item, fromDir := "~/.claude", toDir := ".claude",
                 originalName := itemName, newName := targetName,
                 renamed := !(targetName == itemName) },
               { project := st.project.put targetDirName ⟨targetEntryName, node, now⟩,
                 user := removeAtPath st.user item.path })
        else
          match node with
          | .file content =>
            .ok ({ item := item, fromDir := "~/.claude", toDir := ".claude",
                   originalName := itemName, newName := targetName,
                   renamed := !(targetName == itemName) },
                 { project := st.project.put targetDirName ⟨targetEntryName, .file content, now⟩,
                   user := removeAtPath st.user item.path })
          | .dir _ => .error "EISDIR: illegal operation on a directory, read"

/-! ## Repository client: URL parsing and pull

The local `~/.clsync` store is modelled as a flat filesystem rooted at
`CLSYNC_DIR`: a set of created directory paths and a path-indexed file
store.  The network is a parameter: the fetched recursive tree is a
list of `{path, type}` records and raw-content fetch is a partial
function from paths to contents (`none` models a failing response).
The manifest JSON round-trip is elided: the parsed manifest value is
carried directly (`none` models a missing manifest file; an unparsable
one is collapsed to the same case, as `loadManifest` recovers both to
a fresh manifest). -/

structure LocalFS where
  dirs : List String
  files : List (String × String)
deriving DecidableEq, Repr

def emptyFS : LocalFS := ⟨[], []⟩

/-- Join path segments back with `/` (inverse of `splitOnCharCL`). -/
def joinSegsCL : List (List Char) → List Char
  | [] => []
  | [s] => s
  | s :: s2 :: rest => s ++ '/' :: joinSegsCL (s2 :: rest)

/-- All the directory paths `mkdir(p, {recursive:true})` creates:
every segment-prefix of `p`. -/
def pathAncestors (p : String) : List String :=
  let segs := splitOnCharCL '/' p.toList
  (List.range segs.length).map
    (fun i => (joinSegsCL (segs.take (i + 1))).asString)

def insertDirIfAbsent (ds : List String) (d : String) : List String :=
  if ds.contains d then ds else ds ++ [d]

def mkdirRec (p : String) (fs : LocalFS) : LocalFS :=
  { fs with dirs := (pathAncestors p).foldl insertDirIfAbsent fs.dirs }

/-- `existsSync` / a successful `stat`: the path is a created file or
directory. -/
def existsFS (fs : LocalFS) (p : String) : Bool :=
  fs.files.any (fun kv => kv.1 == p) || fs.dirs.contains p

def writeFileFS (fs : LocalFS) (p c : String) : LocalFS :=
  { fs with files := setKV fs.files p c }

/-- Node `path.dirname` for the one-direction slash paths used here. -/
def dirnameStr (p : String) : String :=
  let segs := splitOnCharCL '/' p.toList
  if segs.length ≤ 1 then "."
  else (joinSegsCL segs.dropLast).asString

structure RepoInfo where
  url : String
  last_pulled : Nat
  items_count : Nat
deriving DecidableEq, Repr

structure Manifest where
  version : String
  repos : List (String × RepoInfo)
  last_updated : Option Nat
deriving DecidableEq, Repr

/-- The state owned by the clsync store: the filesystem under
`~/.clsync` and the (parsed) manifest file, `none` when absent. -/
structure CacheState where
  fs : LocalFS
  manifest : Option Manifest
deriving DecidableEq, Repr

/-- `loadManifest()` (repo-sync.js lines 580–592): a missing or
unparsable manifest is recovered as a fresh empty one. -/
def loadManifest (m : Option Manifest) : Manifest :=
  m.getD { version := "1.0.0", repos := [], last_updated := none }

/-- `initClsync()` (repo-sync.js lines 538–554): create the store
root, the `local` staging root with its three type subdirectories, the
`repos` pool, and an initial manifest when none exists. -/
def initClsync (st : CacheState) (now : Nat) : CacheState :=
  let fs := mkdirRec "local" st.fs
  let fs := mkdirRec "repos" fs
  let fs := SETTINGS_DIRS.foldl (fun a d => mkdirRec ("local/" ++ d) a) fs
  { fs := fs
    manifest :=
      match st.manifest with
      | none => some { version := "1.0.0", repos := [], last_updated := some now }
      | some m => some m }

/-- A record of the recursive git tree listing. -/
structure TreeEntry where
  path : String
  type : String
deriving DecidableEq, Repr

structure RepoRef where
  owner : Option String
  repo : Option String
  branch : String
deriving DecidableEq, Repr

/-- `new URL(s).pathname`, modelled for the `http…` inputs this code
passes in: everything between the end of the authority (the part after
the first `"://"`) and the query/fragment, `"/"` when that is empty.
Inputs without a `"://"` or with an empty scheme or authority make the
WHATWG parser throw; the model uses the Node error message prefix. -/
def urlPathname (s : String) : Except String String :=
  match takeUntilSub [':', '/', '/'] s.toList with
  | none => .error ("Invalid URL: " ++ s)
  | some scheme =>
    let after := s.toList.drop (scheme.length + 3)
    let auth := after.takeWhile (fun c => !(c = '/' || c = '?' || c = '#'))
    if scheme.isEmpty || auth.isEmpty then .error ("Invalid URL: " ++ s)
    else
      let path := (after.drop auth.length).takeWhile (fun c => !(c = '?' || c = '#'))
      .ok (if path.isEmpty then "/" else path.asString)

/-- `parseRepoUrl(repo)` (repo-sync.js lines 2476–2488): an input
starting with `"http"` goes through `new URL` and its pathname is split
on `/` with empty parts dropped (`filter(Boolean)`), the repo part
getting its first `".git"` occurrence removed; any other input is
simply split on `/`.  The branch is always `"main"`.  Missing parts
are `undefined` (`none`), not errors. -/
def parseRepoUrl (repo : String) : Except String RepoRef :=
  if strStartsWith repo "http" then
    match urlPathname repo with
    | .error e => .error e
    | .ok pn =>
      let parts := ((splitOnCharCL '/' pn.toList).map (fun l => l.asString)).filter
        (fun s => !(s == ""))
      .ok { owner := parts[0]?
            repo := (parts[1]?).map (fun r => jsReplaceFirst r ".git")
            branch := "main" }
  else
    let parts := (splitOnCharCL '/' repo.toList).map (fun l => l.asString)
    .ok { owner := parts[0]?, repo := parts[1]?, branch := "main" }

structure PullResult where
  downloaded : Nat
  skipped : Nat
  files : List String
  repoPath : String
deriving DecidableEq, Repr

/-- The settings filter of `pullFromGitHub` (repo-sync.js lines
2557–2563): truthy path, blob, and path under one of the three type
directories. -/
def settingsFilesOf (tree : List TreeEntry) : List TreeEntry :=
  tree.filter (fun f =>
    !(f.path == "") && f.type == "blob" &&
    SETTINGS_DIRS.any (fun d => strStartsWith f.path (d ++ "/")))

def noMatchingItemsMsg : String :=
  "No clsync settings found in repository.\n\n" ++
  "This repository doesn't have the clsync directory structure:\n" ++
  "  - skills/\n" ++
  "  - agents/\n" ++
  "  - output-styles/\n\n" ++
  "Would you like to add clsync settings to this repository?"

/-- The download loop of `pullFromGitHub` (repo-sync.js lines
2583–2597): skip existing targets unless `force`, otherwise create the
parent directory, fetch and write.  A failed fetch THROWS out of the
whole pull (there is no try/catch around this loop); the state reached
so far is returned alongside the error. -/
def pullLoop (repoDir : String) (force : Bool) (fetch : String → Option String) :
    List TreeEntry → LocalFS → Nat → Nat → List String →
    (Except String (Nat × Nat × List String)) × LocalFS
  | [], fs, dl, sk, files => (.ok (dl, sk, files), fs)
  | f :: rest, fs, dl, sk, files =>
    let targetPath := repoDir ++ "/" ++ f.path
    if !force && existsFS fs targetPath then
      pullLoop repoDir force fetch rest fs dl (sk + 1) files
    else
      let fs1 := mkdirRec (dirnameStr targetPath) fs
      match fetch f.path with
      | none => (.error ("Failed to fetch: " ++ f.path), fs1)
      | some content =>
        pullLoop repoDir force fetch rest (writeFileFS fs1 targetPath content)
          (dl + 1) sk (files ++ [f.path])

/-- `pullFromGitHub(repoUrl, {force})` (repo-sync.js lines 2540–2609):
init the store, parse the reference, create the repository cache
directory and its three type subdirectories, fetch the tree (given
here as `tree`), filter it, throw No-Matching-Items on an empty
filter, run the download loop, and update the manifest entry on
success.  `now` stands for every timestamp taken during the call. -/
def pullFromGitHub (repoUrl : String) (force : Bool) (tree : List TreeEntry)
    (fetch : String → Option String) (now : Nat) (st : CacheState) :
    (Except String PullResult) × CacheState :=
  let st0 := initClsync st now
  match parseRepoUrl repoUrl with
  | .error e => (.error e, st0)
  | .ok ref =>
    match ref.owner, ref.repo with
    | some owner, some repo =>
      let repoDir := "repos/" ++ owner ++ "/" ++ repo
      let fs1 := mkdirRec repoDir st0.fs
      let fs2 := SETTINGS_DIRS.foldl (fun a d => mkdirRec (repoDir ++ "/" ++ d) a) fs1
      let settingsFiles := settingsFilesOf tree
      if settingsFiles.isEmpty then
        (.error noMatchingItemsMsg, { st0 with fs := fs2 })
      else
        match pullLoop repoDir force fetch settingsFiles fs2 0 0 [] with
        | (.error e, fs3) => (.error e, { st0 with fs := fs3 })
        | (.ok (dl, sk, files), fs3) =>
          let m := loadManifest st0.manifest
          let m1 := { m with
            repos := setKV m.repos (owner ++ "/" ++ repo)
              { url := repoUrl, last_pulled := now, items_count := dl + sk }
            last_updated := some now }
          (.ok { downloaded := dl, skipped := sk, files := files
                 repoPath := owner ++ "/" ++ repo },
           { fs := fs3, manifest := some m1 })
    | _, _ =>
      -- join(REPOS_DIR, owner, repo) with an undefined component throws
      (.error "TypeError: The \"path\" argument must be of type string", st0)

/-! ## `pullSettings` (repo-sync.js lines 1717–1787)

The older scope-directed pull: it writes under the Claude directory of
the chosen scope (the `LocalFS` here is rooted at that directory),
keeps per-file records including skipped ones, and — unlike
`pullFromGitHub` — catches a failed download, records it as `failed`
and continues with the remaining files. -/

structure FileRec where
  path : String
  status : String
  error : Option String
deriving DecidableEq, Repr

structure PullSettingsResult where
  downloaded : Nat
  skipped : Nat
  failed : Nat
  files : List FileRec
deriving DecidableEq, Repr

/-- The filter of `pullSettings` (repo-sync.js lines 1730–1733). -/
def settingsFilesPS (tree : List TreeEntry) : List TreeEntry :=
  tree.filter (fun f =>
    f.type == "blob" && SETTINGS_DIRS.any (fun d => strStartsWith f.path (d ++ "/")))

def pullSettingsLoop (force dryRun : Bool) (fetch : String → Option String) :
    List TreeEntry → LocalFS → PullSettingsResult → PullSettingsResult × LocalFS
  | [], fs, res => (res, fs)
  | f :: rest, fs, res =>
    let targetPath := f.path
    if !force && existsFS fs targetPath then
      pullSettingsLoop force dryRun fetch rest fs
        { res with skipped := res.skipped + 1
                   files := res.files ++ [⟨f.path, "skipped", none⟩] }
    else if dryRun then
      pullSettingsLoop force dryRun fetch rest fs
        { res with downloaded := res.downloaded + 1
                   files := res.files ++ [⟨f.path, "would-download", none⟩] }
    else
      let fs1 := mkdirRec (dirnameStr targetPath) fs
      match fetch f.path with
      | none =>
        pullSettingsLoop force dryRun fetch rest fs1
          { res with failed := res.failed + 1
                     files := res.files ++
                       [⟨f.path, "failed", some ("Failed to fetch file: " ++ f.path)⟩] }
      | some content =>
        pullSettingsLoop force dryRun fetch rest (writeFileFS fs1 targetPath content)
          { res with downloaded := res.downloaded + 1
                     files := res.files ++ [⟨f.path, "downloaded", none⟩] }

def pullSettings (repoUrl : String) (force dryRun : Bool) (tree : List TreeEntry)
    (fetch : String → Option String) (fs : LocalFS) :
    (Except String PullSettingsResult) × LocalFS :=
  match parseRepoUrl repoUrl with
  | .error e => (.error e, fs)
  | .ok _ =>
    let settingsFiles := settingsFilesPS tree
    if settingsFiles.isEmpty then
      (.error "No settings found in repository. Expected: skills/, agents/, or output-styles/", fs)
    else
      let (res, fs1) := pullSettingsLoop force dryRun fetch settingsFiles fs
        { downloaded := 0, skipped := 0, failed := 0, files := [] }
      (.ok res, fs1)

/-! ## Cleanliness predicates

The scanner's derived fields can be clobbered in three ways the spec
does not account for: a `type`/`name`/`path` key in the frontmatter
overrides the derived field (the object spread comes after them), the
name of a markdown file is stripped with `replace(".md", "")` which
removes the *first* occurrence, and a stray `.md` *file* inside
`skills/` is scanned as an `output-style`.  The predicates below carve
out the roots free of these hazards; the claim theorems use them as
hypotheses and the counterexamples live outside them. -/

def FsNode.isDirN : FsNode → Bool
  | .dir _ => true
  | .file _ => false

/-- Stripping the first `".md"` and re-appending it recovers the file
name; under this condition the derived name determines the file name. -/
def stripRecover (n : String) : Bool :=
  (jsReplaceFirst n ".md" ++ ".md") == n

def noSlash (s : String) : Bool := !(s.toList.contains '/')

/-- The frontmatter does not override any derived item field. -/
def mdCleanB (md : List (String × String)) : Bool :=
  (lookupKV md "type").isNone && (lookupKV md "name").isNone &&
  (lookupKV md "path").isNone

def entryCleanB (d : String) (e : FsEntry) : Bool :=
  noSlash e.name &&
  (match e.node with
   | .dir files =>
     (if d = "skills" then
       match lookupKV files "SKILL.md" with
       | some c => mdCleanB (parseMetadata c)
       | none => true
     else true)
   | .file c =>
     (if d = "skills" then !(strEndsWith e.name ".md")
     else if strEndsWith e.name ".md" then
       mdCleanB (parseMetadata c) && stripRecover e.name
     else true))

/-- `readdir` names are distinct. -/
def namesNodupB : List FsEntry → Bool
  | [] => true
  | e :: rest => !(rest.any (fun x => x.name == e.name)) && namesNodupB rest

def dirCleanB (d : String) (es : List FsEntry) : Bool :=
  namesNodupB es && es.all (entryCleanB d)

def cleanRoot (r : Root) : Bool :=
  dirCleanB "skills" (r.skills.getD []) &&
  dirCleanB "agents" (r.agents.getD []) &&
  dirCleanB "output-styles" (r.outputStyles.getD [])

def itemKey (i : Item) : String × String := (i.type, i.name)

/-- The claim that an item's name is the one derived from the
filesystem entry it was scanned from: the directory name for a
directory entry of `skills`, the file name with the (first) `".md"`
stripped for a file entry. -/
def derivedNameOk (r : Root) (it : Item) : Prop :=
  ∃ d ∈ SETTINGS_DIRS, ∃ e ∈ r.entries d,
    (d = "skills" ∧ e.node.isDirN = true ∧ it.name = e.name) ∨
    (e.node.isDirN = false ∧ it.name = jsReplaceFirst e.name ".md")

instance (r : Root) (it : Item) : Decidable (derivedNameOk r it) := by
  unfold derivedNameOk; infer_instance

/-! ## Concrete inputs for counterexamples and witnesses -/

/-- Two agent files whose frontmatter both set `name: x`: the scanner
emits two items with key `(agent, x)`. -/
def c1Root : Root :=
  { skills := some []
    agents := some [⟨"a.md", .file "---\nname: x\n---", 0⟩,
                    ⟨"b.md", .file "---\nname: x\n---", 0⟩]
    outputStyles := some [] }

/-- A clean root with one item of each kind. -/
def wRoot : Root :=
  { skills := some [⟨"reviewer", .dir [("SKILL.md", "---\ndescription: reviews PRs\n---")], 1⟩]
    agents := some [⟨"notifier.md", .file "---\ndescription: notifies\n---\nbody", 2⟩]
    outputStyles := some [⟨"plain.md", .file "no frontmatter", 3⟩] }

/-- The item the scanner reports for `wRoot`'s `agents/notifier.md`. -/
def wNotifierItem : Item :=
  { type := "agent", name := "notifier", path := "agents/notifier.md"
    metadata := [("description", "notifies")], updated_at := 2 }

/-- An agent file whose frontmatter sets `name: z`, overriding the
file-derived name `a`. -/
def c2Root : Root :=
  { skills := some []
    agents := some [⟨"a.md", .file "---\nname: z\n---", 0⟩]
    outputStyles := some [] }

/-- The decimal digit characters of `n`, most significant first — the
list `Nat.toDigitsCore` prepends to its accumulator. -/
def digitsList (n : Nat) : List Char :=
  if _h : n < 10 then [Nat.digitChar n]
  else digitsList (n / 10) ++ [Nat.digitChar (n % 10)]
decreasing_by exact Nat.div_lt_self (by omega) (by omega)

/-- Reads a digit-character list back as a number. -/
def valDigits (l : List Char) : Nat :=
  l.foldl (fun a c => 10 * a + (c.toNat - 48)) 0

/-- Conflict scenario used to witness C3: both roots contain agents
`x` and `x-1`, so promoting or demoting another `x` must suggest
`x-2`. -/
def c3State : ScopeState :=
  { project := { skills := some []
                 agents := some [⟨"x.md", .file "P", 1⟩, ⟨"x-1.md", .file "Q", 2⟩]
                 outputStyles := some [] }
    user := { skills := some []
              agents := some [⟨"x.md", .file "R", 3⟩, ⟨"x-1.md", .file "S", 4⟩]
              outputStyles := some [] } }

/-- The item `scanItems` reports for `c3State`'s project `agents/x.md`. -/
def c3ItemP : Item := { type := "agent", name := "x", path := "agents/x.md", metadata := [], updated_at := 1 }

/-- The item `scanItems` reports for `c3State`'s user `agents/x.md`. -/
def c3ItemU : Item := { type := "agent", name := "x", path := "agents/x.md", metadata := [], updated_at := 3 }

/-- The filesystem state `pullFromGitHub` has built when its download
loop starts: the store skeleton plus the repository cache directory
and its three type subdirectories. -/
def pullInitFS (owner repo : String) (st : CacheState) (now : Nat) : LocalFS :=
  SETTINGS_DIRS.foldl
    (fun a d => mkdirRec (("repos/" ++ owner ++ "/" ++ repo) ++ "/" ++ d) a)
    (mkdirRec ("repos/" ++ owner ++ "/" ++ repo) (initClsync st now).fs)

/-- Tree of the C7 scenario: two recognized settings blobs and one
unrelated file. -/
def c7Tree : List TreeEntry :=
  [⟨"skills/x/SKILL.md", "blob"⟩, ⟨"agents/y.md", "blob"⟩, ⟨"docs/readme.md", "blob"⟩]

def c7Fetch : String → Option String := fun p =>
  if p = "skills/x/SKILL.md" then some "---
description: x
---"
  else if p = "agents/y.md" then some "y body" else none

/-- Tree and transfer of the C5 counterexample: the first settings
file fails to download, the second would succeed. -/
def c5Tree : List TreeEntry := [⟨"agents/a.md", "blob"⟩, ⟨"agents/b.md", "blob"⟩]

def c5Fetch : String → Option String := fun p =>
  if p = "agents/b.md" then some "B" else none

/-- A tree with no blob under the three type directories (C10). -/
def c10Tree : List TreeEntry := [⟨"docs/readme.md", "blob"⟩, ⟨"skills", "tree"⟩]

/-- A transfer that succeeds on every path (C4 witness). -/
def c4Fetch : String → Option String := fun _ => some "data"

/-- A first successful pull of the two-file tree (C4 witness). -/
def c4Run1 : (Except String PullResult) × CacheState :=
  pullFromGitHub "o/r" false c5Tree c4Fetch 1 { fs := emptyFS, manifest := none }

/-- The C9 scenario: both roots contain an agent `notifier`. -/
def c9State (c1 c2 : String) (t1 t2 : Nat) : ScopeState :=
  { project := { skills := some [], agents := some [⟨"notifier.md", .file c2, t2⟩]
                 outputStyles := some [] }
    user := { skills := some [], agents := some [⟨"notifier.md", .file c1, t1⟩]
              outputStyles := some [] } }

/-- C6 counterexample root: an agent file whose frontmatter overrides
the item type to `skill`, so promote copies it as a plain file into the
user `skills/` directory, where the scanner no longer sees it. -/
def c6Root : Root :=
  { skills := some []
    agents := some [⟨"a.md", .file "---\ntype: skill\n---\nhi", 0⟩]
    outputStyles := some [] }

/-- C6 witness root: a clean project root holding one agent `w`. -/
def c6wP : Root :=
  { skills := some []
    agents := some [⟨"w.md", .file "hello", 3⟩]
    outputStyles := some [] }

end Clsync

namespace Clsync

/-! # Theorems -/

/-! ## Scanner characterization under cleanliness -/

theorem beq_string_iff {a b : String} : (a == b) = true ↔ a = b := by
  simp

theorem mkItemObj_clean (dType dName dPath : String) (md : List (String × String))
    (mtime : Nat) (h : mdCleanB md = true) :
    mkItemObj dType dName dPath md mtime =
      { type := dType, name := dName, path := dPath, metadata := md, updated_at := mtime } := by
  unfold mdCleanB at h
  simp only [Bool.and_eq_true, Option.isNone_iff_eq_none] at h
  unfold mkItemObj
  rw [h.1.1, h.1.2, h.2]
  rfl

theorem scanEntry_skills_char (e : FsEntry) (hc : entryCleanB "skills" e = true)
    (it : Item) (h : scanEntry "skills" e = some it) :
    it.type = "skill" ∧ it.name = e.name ∧ it.path = "skills/" ++ e.name := by
  cases hn : e.node with
  | dir files =>
    cases hl : lookupKV files "SKILL.md" with
    | none => simp [scanEntry, hn, hl] at h
    | some c =>
      have hcl : mdCleanB (parseMetadata c) = true := by
        have hcb := hc
        simp [entryCleanB, hn, hl] at hcb
        exact hcb.2
      have h2 : mkItemObj "skill" e.name ("skills/" ++ e.name) (parseMetadata c) e.mtime = it := by
        simpa [scanEntry, hn, hl] using h
      rw [← h2, mkItemObj_clean _ _ _ _ _ hcl]
      exact ⟨rfl, rfl, rfl⟩
  | file c =>
    by_cases hmd : strEndsWith e.name ".md" = true
    · exfalso; simp [entryCleanB, hn, hmd] at hc
    · simp [scanEntry, hn, hmd] at h

theorem scanEntry_mdfile_char (d : String) (hd : d = "agents" ∨ d = "output-styles")
    (e : FsEntry) (hc : entryCleanB d e = true)
    (it : Item) (h : scanEntry d e = some it) :
    it.type = (if d = "agents" then "agent" else "output-style") ∧
    it.name ++ ".md" = e.name ∧ it.path = d ++ "/" ++ e.name ∧
    (∃ c, e.node = .file c) := by
  have hds : ¬ d = "skills" := by
    rcases hd with h1 | h1 <;> rw [h1] <;> decide
  cases hn : e.node with
  | dir files =>
    simp [scanEntry, hn, hds] at h
  | file c =>
    by_cases hmd : strEndsWith e.name ".md" = true
    · have hcb := hc
      simp [entryCleanB, hn, hds, hmd] at hcb
      have h2 : mkItemObj (if d = "agents" then "agent" else "output-style")
          (jsReplaceFirst e.name ".md") (d ++ "/" ++ e.name)
          (parseMetadata c) e.mtime = it := by
        simpa [scanEntry, hn, hmd] using h
      rw [← h2, mkItemObj_clean _ _ _ _ _ hcb.2.1]
      refine ⟨rfl, ?_, rfl, ⟨c, rfl⟩⟩
      have hsr := hcb.2.2
      unfold stripRecover at hsr
      exact beq_string_iff.mp hsr
    · simp [scanEntry, hn, hmd] at h

theorem namesNodupB_cons {e : FsEntry} {rest : List FsEntry}
    (h : namesNodupB (e :: rest) = true) :
    (∀ x ∈ rest, ¬ x.name = e.name) ∧ namesNodupB rest = true := by
  unfold namesNodupB at h
  simp only [Bool.and_eq_true, Bool.not_eq_true', List.any_eq_false] at h
  exact ⟨fun x hx => by simpa using h.1 x hx, h.2⟩

theorem mem_scanDir {d : String} {es : List FsEntry} {it : Item}
    (h : it ∈ scanDir d es) : ∃ e ∈ es, scanEntry d e = some it := by
  unfold scanDir at h
  simpa using List.mem_filterMap.mp h

/-- Under cleanliness, distinct entries of one directory produce items
with distinct keys, because a key determines the entry name. -/
theorem scanDir_keys_nodup (d : String) (es : List FsEntry)
    (h : dirCleanB d es = true)
    (inj : ∀ e1 e2 it1 it2, entryCleanB d e1 = true → entryCleanB d e2 = true →
      scanEntry d e1 = some it1 → scanEntry d e2 = some it2 →
      itemKey it1 = itemKey it2 → e1.name = e2.name) :
    ((scanDir d es).map itemKey).Nodup := by
  unfold dirCleanB at h
  simp only [Bool.and_eq_true, List.all_eq_true] at h
  obtain ⟨hnd, hall⟩ := h
  induction es with
  | nil => simp [scanDir]
  | cons e rest ih =>
    obtain ⟨hne, hnd2⟩ := namesNodupB_cons hnd
    have hallr : ∀ x ∈ rest, entryCleanB d x = true := fun x hx => hall x (by simp [hx])
    have ihr := ih hnd2 hallr
    cases hse : scanEntry d e with
    | none => simpa [scanDir, List.filterMap_cons, hse] using ihr
    | some it =>
      have ihr2 : ((List.filterMap (scanEntry d) rest).map itemKey).Nodup := ihr
      simp only [scanDir, List.filterMap_cons, hse, List.map_cons, List.nodup_cons]
      refine ⟨?_, ihr2⟩
      intro hmem
      obtain ⟨it2, hit2, hkey⟩ := List.mem_map.mp hmem
      have hit2b : it2 ∈ scanDir d rest := hit2
      obtain ⟨e2, he2, hse2⟩ := mem_scanDir hit2b
      exact hne e2 he2 (inj e2 e it2 it (hallr e2 he2) (hall e (by simp)) hse2 hse hkey)

theorem append_right_injective (s : String) : Function.Injective (fun t : String => t ++ s) := by
  intro a b h
  have h2 : a ++ s = b ++ s := h
  have h3 : (a ++ s).data = (b ++ s).data := by rw [h2]
  simp only [String.data_append] at h3
  exact String.ext (List.append_cancel_right h3)

theorem scanDir_key_inj_skills :
    ∀ e1 e2 it1 it2, entryCleanB "skills" e1 = true → entryCleanB "skills" e2 = true →
      scanEntry "skills" e1 = some it1 → scanEntry "skills" e2 = some it2 →
      itemKey it1 = itemKey it2 → e1.name = e2.name := by
  intro e1 e2 it1 it2 hc1 hc2 h1 h2 hk
  obtain ⟨_, hn1, _⟩ := scanEntry_skills_char e1 hc1 it1 h1
  obtain ⟨_, hn2, _⟩ := scanEntry_skills_char e2 hc2 it2 h2
  have : it1.name = it2.name := congrArg Prod.snd hk
  rw [hn1, hn2] at this
  exact this

theorem scanDir_key_inj_mdfile (d : String) (hd : d = "agents" ∨ d = "output-styles") :
    ∀ e1 e2 it1 it2, entryCleanB d e1 = true → entryCleanB d e2 = true →
      scanEntry d e1 = some it1 → scanEntry d e2 = some it2 →
      itemKey it1 = itemKey it2 → e1.name = e2.name := by
  intro e1 e2 it1 it2 hc1 hc2 h1 h2 hk
  obtain ⟨_, hn1, _⟩ := scanEntry_mdfile_char d hd e1 hc1 it1 h1
  obtain ⟨_, hn2, _⟩ := scanEntry_mdfile_char d hd e2 hc2 it2 h2
  have heq : it1.name = it2.name := congrArg Prod.snd hk
  rw [← hn1, ← hn2]
  rw [heq]

theorem scanDir_type_skills (es : List FsEntry) (hall : ∀ e ∈ es, entryCleanB "skills" e = true) :
    ∀ it ∈ scanDir "skills" es, it.type = "skill" := by
  intro it hit
  obtain ⟨e, he, hse⟩ := mem_scanDir hit
  exact (scanEntry_skills_char e (hall e he) it hse).1

theorem scanDir_type_mdfile (d : String) (hd : d = "agents" ∨ d = "output-styles")
    (es : List FsEntry) (hall : ∀ e ∈ es, entryCleanB d e = true) :
    ∀ it ∈ scanDir d es, it.type = (if d = "agents" then "agent" else "output-style") := by
  intro it hit
  obtain ⟨e, he, hse⟩ := mem_scanDir hit
  exact (scanEntry_mdfile_char d hd e (hall e he) it hse).1

theorem dirCleanB_all {d : String} {es : List FsEntry} (h : dirCleanB d es = true) :
    ∀ e ∈ es, entryCleanB d e = true := by
  unfold dirCleanB at h
  simp only [Bool.and_eq_true, List.all_eq_true] at h
  intro e he
  exact h.2 e he

/-! ## Claim C1 -/

/-- Claim C1 (amended): for a root whose directory listings carry
distinct entry names, whose frontmatter blocks never override the
derived `type`/`name`/`path` fields, whose markdown file names contain
`".md"` only as their final extension, and whose `skills` directory
holds no stray `.md` files, the scanner never returns two items with
the same `(type, name)` pair.  (The unamended claim is refuted by
`c1_counterexample`.) -/
theorem c1_scan_keys_nodup (r : Root) (h : cleanRoot r = true) :
    ((scanItems r).map (fun i => (i.type, i.name))).Nodup := by
  unfold cleanRoot at h
  simp only [Bool.and_eq_true] at h
  obtain ⟨⟨hs, ha⟩, ho⟩ := h
  have hns : ((scanDir "skills" (r.skills.getD [])).map itemKey).Nodup :=
    scanDir_keys_nodup _ _ hs scanDir_key_inj_skills
  have hna : ((scanDir "agents" (r.agents.getD [])).map itemKey).Nodup :=
    scanDir_keys_nodup _ _ ha (scanDir_key_inj_mdfile _ (Or.inl rfl))
  have hno : ((scanDir "output-styles" (r.outputStyles.getD [])).map itemKey).Nodup :=
    scanDir_keys_nodup _ _ ho (scanDir_key_inj_mdfile _ (Or.inr rfl))
  have hts : ∀ it ∈ scanDir "skills" (r.skills.getD []), it.type = "skill" :=
    scanDir_type_skills _ (dirCleanB_all hs)
  have hta : ∀ it ∈ scanDir "agents" (r.agents.getD []), it.type = "agent" := by
    have := scanDir_type_mdfile "agents" (Or.inl rfl) _ (dirCleanB_all ha)
    simpa using this
  have hto : ∀ it ∈ scanDir "output-styles" (r.outputStyles.getD []), it.type = "output-style" := by
    have := scanDir_type_mdfile "output-styles" (Or.inr rfl) _ (dirCleanB_all ho)
    simpa using this
  have hkey : (fun i : Item => (i.type, i.name)) = itemKey := rfl
  rw [hkey]
  unfold scanItems
  rw [List.map_append, List.map_append, List.nodup_append, List.nodup_append]
  refine ⟨⟨hns, hna, ?_⟩, hno, ?_⟩
  · intro k hk1 hk2
    obtain ⟨i1, hi1, hk1e⟩ := List.mem_map.mp hk1
    obtain ⟨i2, hi2, hk2e⟩ := List.mem_map.mp hk2
    have ht1 : i1.type = "skill" := hts i1 hi1
    have ht2 : i2.type = "agent" := hta i2 hi2
    have hty : i1.type = i2.type := congrArg Prod.fst (hk1e.trans hk2e.symm)
    rw [ht1, ht2] at hty
    exact absurd hty (by decide)
  · intro k hk1 hk2
    obtain ⟨i2, hi2, hk2e⟩ := List.mem_map.mp hk2
    have ht2 : i2.type = "output-style" := hto i2 hi2
    rw [List.mem_append] at hk1
    rcases hk1 with hk1 | hk1
    · obtain ⟨i1, hi1, hk1e⟩ := List.mem_map.mp hk1
      have ht1 : i1.type = "skill" := hts i1 hi1
      have hty : i1.type = i2.type := congrArg Prod.fst (hk1e.trans hk2e.symm)
      rw [ht1, ht2] at hty
      exact absurd hty (by decide)
    · obtain ⟨i1, hi1, hk1e⟩ := List.mem_map.mp hk1
      have ht1 : i1.type = "agent" := hta i1 hi1
      have hty : i1.type = i2.type := congrArg Prod.fst (hk1e.trans hk2e.symm)
      rw [ht1, ht2] at hty
      exact absurd hty (by decide)

/-- Witness for C1: the amended theorem applied to a concrete clean
root holding one item of each type. -/
theorem c1_witness : ((scanItems wRoot).map (fun i => (i.type, i.name))).Nodup :=
  c1_scan_keys_nodup wRoot (by decide)

/-- Counterexample to C1 as stated: two agent files whose frontmatter
both declare `name: x` scan to two items with the key `(agent, x)`. -/
theorem c1_counterexample :
    ¬ ((scanItems c1Root).map (fun i => (i.type, i.name))).Nodup := by decide

/-! ## Claim C2 -/

/-- Claim C2 (amended): an item whose parsed frontmatter carries no
`name` key has the filesystem-derived name — the directory name for a
skill directory, and the file name with the first `".md"` occurrence
removed (which is "the file name minus the extension" whenever `".md"`
occurs only as the final extension) for a markdown file.  (The
unamended "regardless of what key/value pairs appear in the metadata
block" is refuted by `c2_counterexample`, and `.replace(".md", "")` is
first-occurrence removal, not suffix removal.) -/
theorem c2_scan_name_derived (r : Root) (it : Item) (hmem : it ∈ scanItems r)
    (hclean : lookupKV it.metadata "name" = none) : derivedNameOk r it := by
  unfold scanItems at hmem
  rw [List.mem_append, List.mem_append] at hmem
  have hcase : ∃ d ∈ SETTINGS_DIRS, ∃ e ∈ r.entries d, scanEntry d e = some it := by
    rcases hmem with (h | h) | h
    · obtain ⟨e, he, hse⟩ := mem_scanDir h
      exact ⟨"skills", by decide, e, he, hse⟩
    · obtain ⟨e, he, hse⟩ := mem_scanDir h
      refine ⟨"agents", by decide, e, ?_, hse⟩
      simpa [Root.entries, Root.get] using he
    · obtain ⟨e, he, hse⟩ := mem_scanDir h
      refine ⟨"output-styles", by decide, e, ?_, hse⟩
      simpa [Root.entries, Root.get] using he
  obtain ⟨d, hd, e, he, hse⟩ := hcase
  refine ⟨d, hd, e, he, ?_⟩
  cases hn : e.node with
  | dir files =>
    by_cases hds : d = "skills"
    · subst hds
      cases hl : lookupKV files "SKILL.md" with
      | none => simp [scanEntry, hn, hl] at hse
      | some c =>
        have h2 : mkItemObj "skill" e.name ("skills/" ++ e.name)
            (parseMetadata c) e.mtime = it := by
          simpa [scanEntry, hn, hl] using hse
        have hmdn : lookupKV (parseMetadata c) "name" = none := by
          rw [← h2] at hclean
          exact hclean
        refine Or.inl ⟨rfl, rfl, ?_⟩
        rw [← h2]
        show (lookupKV (parseMetadata c) "name").getD e.name = e.name
        rw [hmdn]
        rfl
    · simp [scanEntry, hn, hds] at hse
  | file c =>
    by_cases hmd : strEndsWith e.name ".md" = true
    · have h2 : mkItemObj (if d = "agents" then "agent" else "output-style")
          (jsReplaceFirst e.name ".md") (d ++ "/" ++ e.name)
          (parseMetadata c) e.mtime = it := by
        simpa [scanEntry, hn, hmd] using hse
      have hmdn : lookupKV (parseMetadata c) "name" = none := by
        rw [← h2] at hclean
        exact hclean
      refine Or.inr ⟨rfl, ?_⟩
      rw [← h2]
      show (lookupKV (parseMetadata c) "name").getD (jsReplaceFirst e.name ".md") =
        jsReplaceFirst e.name ".md"
      rw [hmdn]
      rfl
    · simp [scanEntry, hn, hmd] at hse

/-- Witness for C2: the amended theorem applied to the `notifier`
agent of the concrete clean root. -/
theorem c2_witness : derivedNameOk wRoot wNotifierItem :=
  c2_scan_name_derived wRoot wNotifierItem (by decide) (by decide)

/-- Counterexample to C2 as stated: a `name: z` frontmatter key in
`agents/a.md` makes the scanned item's name `z`, not the file-derived
`a`. -/
theorem c2_counterexample :
    ¬ (∀ it ∈ scanItems c2Root, derivedNameOk c2Root it) := by decide

/-! ## Claim C8 -/

/-- Claim C8 (amended): `parseRepoUrl` accepts a full URL or an
`owner/repo` shorthand and returns `{owner, repo, branch}` with the
branch always the fixed `"main"` (no URL can override it).  Shorthand
inputs never throw — the input is split on `/` without validation, so
a slash-free input yields an `undefined` repo rather than an
Invalid-Reference error (refuted as stated by `c8_counterexample`);
only inputs starting with `http` that the URL parser rejects throw. -/
theorem c8_parseRepoUrl_spec (s : String) :
    (strStartsWith s "http" = false →
      parseRepoUrl s = .ok
        { owner := ((splitOnCharCL '/' s.toList).map (fun l => l.asString))[0]?
          repo := ((splitOnCharCL '/' s.toList).map (fun l => l.asString))[1]?
          branch := "main" }) ∧
    (∀ ref, parseRepoUrl s = .ok ref → ref.branch = "main") := by
  constructor
  · intro h
    simp [parseRepoUrl, h]
  · intro ref href
    unfold parseRepoUrl at href
    by_cases h : strStartsWith s "http" = true
    · rw [if_pos h] at href
      cases hu : urlPathname s with
      | error e => rw [hu] at href; exact absurd href (by simp)
      | ok pn =>
        rw [hu] at href
        simp only [Except.ok.injEq] at href
        rw [← href]
    · rw [if_neg h] at href
      simp only [Except.ok.injEq] at href
      rw [← href]

/-- Witness for C8: the amended theorem applied to the shorthand
`workromancer/clsync` and to a parsed https URL. -/
theorem c8_witness :
    parseRepoUrl "workromancer/clsync" =
      .ok { owner := some "workromancer", repo := some "clsync", branch := "main" } ∧
    ({ owner := some "a", repo := some "b", branch := "main" } : RepoRef).branch = "main" :=
  ⟨((c8_parseRepoUrl_spec "workromancer/clsync").1 (by decide)).trans (by rfl),
   (c8_parseRepoUrl_spec "https://github.com/a/b").2
     { owner := some "a", repo := some "b", branch := "main" } (by rfl)⟩

/-- Counterexample to C8 as stated: the unparsable (slash-free) input
`garbage` does not throw an Invalid-Reference error; `parseRepoUrl`
returns successfully with an undefined repo. -/
theorem c8_counterexample :
    parseRepoUrl "garbage" =
      .ok { owner := some "garbage", repo := none, branch := "main" } := by rfl

/-! ## Claim C3: the conflict suggestion -/

theorem toDigitsCore_eq_digitsList (f : Nat) :
    ∀ n l, n < f → Nat.toDigitsCore 10 f n l = digitsList n ++ l := by
  induction f with
  | zero => intro n l h; omega
  | succ f ih =>
    intro n l h
    by_cases h10 : n < 10
    · have hdiv : n / 10 = 0 := Nat.div_eq_of_lt h10
      have hmod : n % 10 = n := Nat.mod_eq_of_lt h10
      rw [digitsList]
      simp [Nat.toDigitsCore, hdiv, hmod, h10]
    · have hdiv : ¬ n / 10 = 0 := by
        intro hz
        have := Nat.div_eq_of_lt (by omega : n < 10)
        omega
      have hlt : n / 10 < f := by
        have h1 : n / 10 < n := Nat.div_lt_self (by omega) (by omega)
        omega
      rw [digitsList]
      simp only [Nat.toDigitsCore, hdiv, if_neg, dif_neg h10]
      rw [ih (n / 10) (Nat.digitChar (n % 10) :: l) hlt]
      simp

theorem digitChar_val (d : Nat) (h : d < 10) : (Nat.digitChar d).toNat - 48 = d := by
  have : ∀ d2, d2 < 10 → (Nat.digitChar d2).toNat - 48 = d2 := by decide
  exact this d h

theorem valDigits_digitsList (n : Nat) : valDigits (digitsList n) = n := by
  induction n using Nat.strong_induction_on with
  | _ n ih =>
    by_cases h10 : n < 10
    · rw [digitsList, dif_pos h10]
      show 10 * 0 + ((Nat.digitChar n).toNat - 48) = n
      rw [digitChar_val n h10]
      omega
    · rw [digitsList, dif_neg h10]
      unfold valDigits
      rw [List.foldl_append]
      have ihv : valDigits (digitsList (n / 10)) = n / 10 :=
        ih (n / 10) (Nat.div_lt_self (by omega) (by omega))
      unfold valDigits at ihv
      rw [ihv]
      show 10 * (n / 10) + ((Nat.digitChar (n % 10)).toNat - 48) = n
      rw [digitChar_val (n % 10) (Nat.mod_lt n (by omega))]
      omega

theorem nat_repr_injective : Function.Injective Nat.repr := by
  intro m n h
  unfold Nat.repr Nat.toDigits at h
  have hm := toDigitsCore_eq_digitsList (m + 1) m [] (by omega)
  have hn := toDigitsCore_eq_digitsList (n + 1) n [] (by omega)
  rw [hm, hn] at h
  have hdl : digitsList m ++ [] = digitsList n ++ [] := by
    have := congrArg String.data h
    simpa [List.asString] using this
  simp only [List.append_nil] at hdl
  have := congrArg valDigits hdl
  rwa [valDigits_digitsList, valDigits_digitsList] at this

theorem repr_length_pos (n : Nat) : 0 < (Nat.repr n).length := by
  unfold Nat.repr Nat.toDigits
  rw [toDigitsCore_eq_digitsList (n + 1) n [] (by omega)]
  show 0 < (List.asString (digitsList n ++ [])).data.length
  simp only [List.asString, List.append_nil]
  rw [digitsList]
  by_cases h10 : n < 10
  · simp [h10]
  · simp [h10]

theorem nthCandidate_injective (name : String) : Function.Injective (nthCandidate name) := by
  intro i j h
  match i, j with
  | 0, 0 => rfl
  | 0, j + 1 =>
    exfalso
    have hlen := congrArg String.length h
    simp only [nthCandidate, String.length_append] at hlen
    have hd1 : ("-" : String).length = 1 := rfl
    rw [hd1] at hlen
    have hp := repr_length_pos (j + 1)
    omega
  | i + 1, 0 =>
    exfalso
    have hlen := congrArg String.length h
    simp only [nthCandidate, String.length_append] at hlen
    have hd1 : ("-" : String).length = 1 := rfl
    rw [hd1] at hlen
    have hp := repr_length_pos (i + 1)
    omega
  | i + 1, j + 1 =>
    have hd := congrArg String.data h
    simp only [nthCandidate, String.data_append] at hd
    have hr : (Nat.repr (i + 1)).data = (Nat.repr (j + 1)).data :=
      List.append_cancel_left hd
    have := nat_repr_injective (String.ext hr)
    omega

theorem itemExists_name_mem (nm type : String) (target : Root)
    (h : (itemExistsInTarget nm type target).isSome = true) :
    ∃ it ∈ scanItems target, it.name = nm := by
  rw [Option.isSome_iff_exists] at h
  obtain ⟨it, hit⟩ := h
  have hmem := List.mem_of_find?_eq_some hit
  have hp := List.find?_some hit
  simp only [Bool.and_eq_true, beq_iff_eq] at hp
  exact ⟨it, hmem, hp.1⟩

/-- Pigeonhole: if the first `k` candidates all collide with scanned
items of the target, there are at least `k` scanned items. -/
theorem candidate_collisions_bound (name type : String) (target : Root) (k : Nat)
    (hcoll : ∀ j, j < k → (itemExistsInTarget (nthCandidate name j) type target).isSome = true) :
    k ≤ (scanItems target).length := by
  classical
  have hsub : ∀ j ∈ Finset.range k,
      nthCandidate name j ∈ ((scanItems target).map Item.name).toFinset := by
    intro j hj
    obtain ⟨it, hmem, hname⟩ := itemExists_name_mem _ _ _ (hcoll j (Finset.mem_range.mp hj))
    rw [List.mem_toFinset, List.mem_map]
    exact ⟨it, hmem, hname⟩
  have hinj : Set.InjOn (nthCandidate name) (Finset.range k) := fun a _ b _ hab =>
    nthCandidate_injective name hab
  calc k = (Finset.range k).card := (Finset.card_range k).symm
    _ ≤ (((scanItems target).map Item.name).toFinset).card :=
        Finset.card_le_card_of_injOn (nthCandidate name) hsub hinj
    _ ≤ ((scanItems target).map Item.name).length := List.toFinset_card_le _
    _ = (scanItems target).length := List.length_map _ _

theorem getUniqueNameGo_spec (name type : String) (target : Root) (k : Nat)
    (hcoll : ∀ j, j < k → (itemExistsInTarget (nthCandidate name j) type target).isSome = true)
    (hfree : itemExistsInTarget (nthCandidate name k) type target = none) :
    ∀ fuel j, j ≤ k → k - j < fuel →
      getUniqueNameGo name type target fuel (j + 1) (nthCandidate name j) =
        nthCandidate name k := by
  intro fuel
  induction fuel with
  | zero => intro j hj hf; omega
  | succ f ih =>
    intro j hj hlt
    by_cases hjk : j = k
    · subst hjk
      simp [getUniqueNameGo, hfree]
    · have hj2 : j < k := lt_of_le_of_ne hj hjk
      have hc := hcoll j hj2
      unfold getUniqueNameGo
      rw [hc]
      simp only [if_true]
      have harg : name ++ "-" ++ Nat.repr (j + 1) = nthCandidate name (j + 1) := rfl
      rw [harg]
      exact ih (j + 1) hj2 (by omega)

/-- The `getUniqueName` loop returns the first free candidate. -/
theorem getUniqueName_eq (name type : String) (target : Root) (k : Nat)
    (hcoll : ∀ j, j < k → (itemExistsInTarget (nthCandidate name j) type target).isSome = true)
    (hfree : itemExistsInTarget (nthCandidate name k) type target = none) :
    getUniqueName name type target = nthCandidate name k := by
  have hk := candidate_collisions_bound name type target k hcoll
  have h := getUniqueNameGo_spec name type target k hcoll hfree
    ((scanItems target).length + 1) 0 (Nat.zero_le k) (by omega)
  simpa [getUniqueName, nthCandidate] using h

/-- Claim C3: when promote (resp. demote) finds a name+type collision
at the destination and the caller supplied neither `force` nor
`rename`, it throws the Conflict message carrying the suggestion
computed by appending `-1`, `-2`, … to the original name until no
collision remains: with all candidates below `k` colliding in the
destination and candidate `k` free, the suggestion is exactly
candidate `k` (`x-2` when the destination holds `x` and `x-1`). -/
theorem c3_conflict_suggestion (st : ScopeState) (n : String) (it itU : Item)
    (k kU now : Nat)
    (hfindP : (scanItems st.project).find? (fun i => i.name == n) = some it)
    (hfindU : (scanItems st.user).find? (fun i => i.name == n) = some itU)
    (hkpos : 0 < k) (hkUpos : 0 < kU)
    (hcollU : ∀ j, j < k → (itemExistsInTarget (nthCandidate n j) it.type st.user).isSome = true)
    (hfreeU : itemExistsInTarget (nthCandidate n k) it.type st.user = none)
    (hcollP : ∀ j, j < kU → (itemExistsInTarget (nthCandidate n j) itU.type st.project).isSome = true)
    (hfreeP : itemExistsInTarget (nthCandidate n kU) itU.type st.project = none) :
    promoteItem n none false st now = .error (promoteConflictMsg n (nthCandidate n k)) ∧
    demoteItem n none false st now = .error (demoteConflictMsg n (nthCandidate n kU)) := by
  constructor
  · have hex : (itemExistsInTarget n it.type st.user).isSome = true := hcollU 0 hkpos
    unfold promoteItem
    rw [hfindP]
    simp only [hex, optTruthy, Bool.not_false, Bool.and_true, Bool.and_self, if_true]
    rw [getUniqueName_eq n it.type st.user k hcollU hfreeU]
  · have hex : (itemExistsInTarget n itU.type st.project).isSome = true := hcollP 0 hkUpos
    unfold demoteItem
    rw [hfindU]
    simp only [hex, optTruthy, Bool.not_false, Bool.and_true, Bool.and_self, if_true]
    rw [getUniqueName_eq n itU.type st.project kU hcollP hfreeP]

/-- Witness for C3: in `c3State` both destinations hold `x` and
`x-1`, so both directions throw the conflict with suggestion `x-2`. -/
theorem c3_witness :
    promoteItem "x" none false c3State 7 = .error (promoteConflictMsg "x" "x-2") ∧
    demoteItem "x" none false c3State 7 = .error (demoteConflictMsg "x" "x-2") := by
  have h := c3_conflict_suggestion c3State "x" c3ItemP c3ItemU 2 2 7
    (by decide) (by decide) (by decide) (by decide)
    (by decide) (by decide) (by decide) (by decide)
  exact ⟨h.1.trans (by rfl), h.2.trans (by rfl)⟩

/-! ## Local filesystem lemmas -/

theorem splitOnCharCL_ne_nil (sep : Char) (l : List Char) : splitOnCharCL sep l ≠ [] := by
  cases l with
  | nil => simp [splitOnCharCL]
  | cons c rest =>
    unfold splitOnCharCL
    by_cases h : c = sep
    · simp [h]
    · simp only [h, if_false]
      cases splitOnCharCL sep rest <;> simp

theorem joinSegs_split (l : List Char) : joinSegsCL (splitOnCharCL '/' l) = l := by
  induction l with
  | nil => rfl
  | cons c rest ih =>
    unfold splitOnCharCL
    by_cases h : c = '/'
    · subst h
      simp only [if_pos rfl]
      cases hs : splitOnCharCL '/' rest with
      | nil => exact absurd hs (splitOnCharCL_ne_nil '/' rest)
      | cons s ss =>
        rw [hs] at ih
        show [] ++ '/' :: joinSegsCL (s :: ss) = '/' :: rest
        rw [List.nil_append, ih]
    · simp only [h, if_false]
      cases hs : splitOnCharCL '/' rest with
      | nil => exact absurd hs (splitOnCharCL_ne_nil '/' rest)
      | cons s ss =>
        rw [hs] at ih
        cases ss with
        | nil =>
          show c :: s = c :: rest
          rw [show joinSegsCL [s] = s from rfl] at ih
          rw [ih]
        | cons s2 ss2 =>
          show (c :: s) ++ '/' :: joinSegsCL (s2 :: ss2) = c :: rest
          rw [← ih]
          rfl

theorem self_mem_pathAncestors (p : String) : p ∈ pathAncestors p := by
  unfold pathAncestors
  have hne := splitOnCharCL_ne_nil '/' p.toList
  set segs := splitOnCharCL '/' p.toList with hsegs
  have hlen : 0 < segs.length := List.length_pos.mpr hne
  rw [List.mem_map]
  refine ⟨segs.length - 1, List.mem_range.mpr (by omega), ?_⟩
  have htake : segs.take (segs.length - 1 + 1) = segs := by
    rw [Nat.sub_add_cancel hlen]
    exact List.take_length segs
  rw [htake, hsegs, joinSegs_split]
  show String.mk p.toList = p
  cases p
  rfl

theorem mem_insertDirIfAbsent (ds : List String) (d x : String) :
    x ∈ insertDirIfAbsent ds d ↔ x ∈ ds ∨ x = d := by
  unfold insertDirIfAbsent
  by_cases h : ds.contains d = true
  · have hd : d ∈ ds := by simpa using h
    rw [if_pos h]
    constructor
    · exact Or.inl
    · rintro (hx | rfl)
      · exact hx
      · exact hd
  · rw [if_neg h]
    simp only [List.mem_append, List.mem_singleton]

theorem mem_foldl_insertDir (l : List String) :
    ∀ ds x, x ∈ l.foldl insertDirIfAbsent ds ↔ x ∈ ds ∨ x ∈ l := by
  induction l with
  | nil => intro ds x; simp
  | cons d rest ih =>
    intro ds x
    rw [List.foldl_cons, ih, mem_insertDirIfAbsent]
    simp only [List.mem_cons]
    tauto

theorem foldl_insertDir_noop (l : List String) :
    ∀ ds, (∀ q ∈ l, q ∈ ds) → l.foldl insertDirIfAbsent ds = ds := by
  induction l with
  | nil => intro ds _; rfl
  | cons d rest ih =>
    intro ds h
    rw [List.foldl_cons]
    have hd : ds.contains d = true := by
      have := h d (by simp)
      simpa using this
    rw [show insertDirIfAbsent ds d = ds from by unfold insertDirIfAbsent; rw [if_pos hd]]
    exact ih ds (fun q hq => h q (by simp [hq]))

theorem mkdirRec_files (p : String) (fs : LocalFS) : (mkdirRec p fs).files = fs.files := rfl

theorem mem_mkdirRec_dirs (p q : String) (fs : LocalFS) :
    q ∈ (mkdirRec p fs).dirs ↔ q ∈ fs.dirs ∨ q ∈ pathAncestors p := by
  unfold mkdirRec
  exact mem_foldl_insertDir (pathAncestors p) fs.dirs q

theorem mkdirRec_noop (p : String) (fs : LocalFS)
    (h : ∀ q ∈ pathAncestors p, q ∈ fs.dirs) : mkdirRec p fs = fs := by
  unfold mkdirRec
  rw [foldl_insertDir_noop _ _ h]

theorem setKV_cons {α : Type} (k0 k : String) (v0 v : α) (rest : List (String × α)) :
    setKV ((k0, v0) :: rest) k v =
      if k0 = k then (k0, v) :: rest else (k0, v0) :: setKV rest k v := rfl

theorem setKV_any_key {α : Type} (l : List (String × α)) (k q : String) (v : α) :
    (setKV l k v).any (fun kv => kv.1 == q) = true ↔
      l.any (fun kv => kv.1 == q) = true ∨ k = q := by
  induction l with
  | nil => simp [setKV]
  | cons kv0 rest ih =>
    obtain ⟨k0, v0⟩ := kv0
    by_cases h : k0 = k
    · subst h
      rw [show setKV ((k0, v0) :: rest) k0 v = (k0, v) :: rest from by
        rw [setKV_cons, if_pos rfl]]
      simp only [List.any_cons, Bool.or_eq_true, beq_iff_eq]
      tauto
    · rw [show setKV ((k0, v0) :: rest) k v = (k0, v0) :: setKV rest k v from by
        rw [setKV_cons, if_neg h]]
      simp only [List.any_cons, Bool.or_eq_true, beq_iff_eq]
      rw [ih]
      tauto

theorem existsFS_writeFileFS (fs : LocalFS) (p c : String) (q : String) :
    existsFS (writeFileFS fs p c) q = true ↔ existsFS fs q = true ∨ p = q := by
  unfold existsFS writeFileFS
  simp only [Bool.or_eq_true]
  rw [setKV_any_key]
  tauto

theorem existsFS_mkdirRec (p : String) (fs : LocalFS) (q : String) :
    existsFS (mkdirRec p fs) q = true ↔ existsFS fs q = true ∨ q ∈ pathAncestors p := by
  unfold existsFS
  rw [mkdirRec_files]
  simp only [Bool.or_eq_true]
  have hd : (mkdirRec p fs).dirs.contains q = true ↔ q ∈ (mkdirRec p fs).dirs := by
    simp
  have hd2 : fs.dirs.contains q = true ↔ q ∈ fs.dirs := by simp
  rw [hd, hd2, mem_mkdirRec_dirs]
  tauto

theorem pullLoop_dirs_mono (repoDir : String) (force : Bool) (fetch : String → Option String)
    (files : List TreeEntry) :
    ∀ fs dl sk fl q, q ∈ fs.dirs →
      q ∈ (pullLoop repoDir force fetch files fs dl sk fl).2.dirs := by
  induction files with
  | nil => intro fs dl sk fl q h; exact h
  | cons f rest ih =>
    intro fs dl sk fl q h
    unfold pullLoop
    by_cases hex : (!force && existsFS fs (repoDir ++ "/" ++ f.path)) = true
    · rw [if_pos hex]
      exact ih fs dl (sk + 1) fl q h
    · rw [if_neg hex]
      have h1 : q ∈ (mkdirRec (dirnameStr (repoDir ++ "/" ++ f.path)) fs).dirs :=
        (mem_mkdirRec_dirs _ _ _).mpr (Or.inl h)
      cases hf : fetch f.path with
      | none => exact h1
      | some content => exact ih _ (dl + 1) sk (fl ++ [f.path]) q h1

theorem pullLoop_exists_mono (repoDir : String) (force : Bool) (fetch : String → Option String)
    (files : List TreeEntry) :
    ∀ fs dl sk fl q, existsFS fs q = true →
      existsFS (pullLoop repoDir force fetch files fs dl sk fl).2 q = true := by
  induction files with
  | nil => intro fs dl sk fl q h; exact h
  | cons f rest ih =>
    intro fs dl sk fl q h
    unfold pullLoop
    by_cases hex : (!force && existsFS fs (repoDir ++ "/" ++ f.path)) = true
    · rw [if_pos hex]
      exact ih fs dl (sk + 1) fl q h
    · rw [if_neg hex]
      have h1 : existsFS (mkdirRec (dirnameStr (repoDir ++ "/" ++ f.path)) fs) q = true :=
        (existsFS_mkdirRec _ _ _).mpr (Or.inl h)
      cases hf : fetch f.path with
      | none => exact h1
      | some content =>
        exact ih _ (dl + 1) sk (fl ++ [f.path]) q
          ((existsFS_writeFileFS _ _ _ _).mpr (Or.inl h1))

theorem pullLoop_ok_targets (repoDir : String) (force : Bool) (fetch : String → Option String)
    (files : List TreeEntry) :
    ∀ fs dl sk fl out fs2,
      pullLoop repoDir force fetch files fs dl sk fl = (.ok out, fs2) →
      ∀ f ∈ files, existsFS fs2 (repoDir ++ "/" ++ f.path) = true := by
  induction files with
  | nil => intro fs dl sk fl out fs2 _ f hf; exact absurd hf (by simp)
  | cons f0 rest ih =>
    intro fs dl sk fl out fs2 h f hf
    unfold pullLoop at h
    by_cases hex : (!force && existsFS fs (repoDir ++ "/" ++ f0.path)) = true
    · rw [if_pos hex] at h
      rcases List.mem_cons.mp hf with rfl | hf2
      · have hx : existsFS fs (repoDir ++ "/" ++ f.path) = true := by
          rw [Bool.and_eq_true] at hex
          exact hex.2
        have := pullLoop_exists_mono repoDir force fetch rest fs dl (sk + 1) fl _ hx
        rw [h] at this
        exact this
      · exact ih fs dl (sk + 1) fl out fs2 h f hf2
    · rw [if_neg hex] at h
      cases hfc : fetch f0.path with
      | none => rw [hfc] at h; dsimp only at h; simp at h
      | some content =>
        rw [hfc] at h
        dsimp only at h
        rcases List.mem_cons.mp hf with rfl | hf2
        · have hx : existsFS (writeFileFS (mkdirRec (dirnameStr (repoDir ++ "/" ++ f.path)) fs)
              (repoDir ++ "/" ++ f.path) content) (repoDir ++ "/" ++ f.path) = true :=
            (existsFS_writeFileFS _ _ _ _).mpr (Or.inr rfl)
          have := pullLoop_exists_mono repoDir force fetch rest _ (dl + 1) sk (fl ++ [f.path]) _ hx
          rw [h] at this
          exact this
        · exact ih _ (dl + 1) sk (fl ++ [f0.path]) out fs2 h f hf2

theorem pullLoop_all_skip (repoDir : String) (g : String → Option String)
    (files : List TreeEntry) :
    ∀ fs dl sk fl, (∀ f ∈ files, existsFS fs (repoDir ++ "/" ++ f.path) = true) →
      pullLoop repoDir false g files fs dl sk fl =
        (.ok (dl, sk + files.length, fl), fs) := by
  induction files with
  | nil => intro fs dl sk fl _; rfl
  | cons f rest ih =>
    intro fs dl sk fl h
    unfold pullLoop
    have hex : (!false && existsFS fs (repoDir ++ "/" ++ f.path)) = true := by
      rw [Bool.not_false, Bool.true_and]
      exact h f (by simp)
    rw [if_pos hex, ih fs dl (sk + 1) fl (fun f2 hf2 => h f2 (by simp [hf2]))]
    have : sk + 1 + rest.length = sk + (rest.length + 1) := by omega
    rw [this]
    rfl

/-! ## Claim C10 -/

theorem mem_pullInitFS_of_base (owner repo : String) (st : CacheState) (now : Nat) (q : String)
    (h : q ∈ (mkdirRec ("repos/" ++ owner ++ "/" ++ repo) (initClsync st now).fs).dirs) :
    q ∈ (pullInitFS owner repo st now).dirs := by
  unfold pullInitFS
  simp only [SETTINGS_DIRS, List.foldl_cons, List.foldl_nil]
  exact (mem_mkdirRec_dirs _ _ _).mpr (Or.inl ((mem_mkdirRec_dirs _ _ _).mpr
    (Or.inl ((mem_mkdirRec_dirs _ _ _).mpr (Or.inl h)))))

theorem mem_pullInitFS_typeDir (owner repo : String) (st : CacheState) (now : Nat)
    (d : String) (hd : d ∈ SETTINGS_DIRS) :
    ∀ q ∈ pathAncestors (("repos/" ++ owner ++ "/" ++ repo) ++ "/" ++ d),
      q ∈ (pullInitFS owner repo st now).dirs := by
  intro q hq
  unfold pullInitFS
  simp only [SETTINGS_DIRS, List.foldl_cons, List.foldl_nil]
  have hd3 : d = "skills" ∨ d = "agents" ∨ d = "output-styles" := by
    simpa [SETTINGS_DIRS] using hd
  rcases hd3 with rfl | rfl | rfl
  · exact (mem_mkdirRec_dirs _ _ _).mpr (Or.inl ((mem_mkdirRec_dirs _ _ _).mpr
      (Or.inl ((mem_mkdirRec_dirs _ _ _).mpr (Or.inr hq)))))
  · exact (mem_mkdirRec_dirs _ _ _).mpr (Or.inl ((mem_mkdirRec_dirs _ _ _).mpr (Or.inr hq)))
  · exact (mem_mkdirRec_dirs _ _ _).mpr (Or.inr hq)

/-- Claim C10: a pull against a repository whose tree holds no blob
under the three type directories throws the No-Matching-Items error
only after creating the repository cache directory and its three type
subdirectories; when the cache directory did not exist before, the
local state has changed on this error path. -/
theorem c10_pull_error_after_mkdir (url owner repo : String) (force : Bool)
    (tree : List TreeEntry) (fetch : String → Option String) (now : Nat) (st : CacheState)
    (hparse : parseRepoUrl url = .ok { owner := some owner, repo := some repo, branch := "main" })
    (hempty : settingsFilesOf tree = []) :
    ∃ fs2 : LocalFS,
      pullFromGitHub url force tree fetch now st =
        (.error noMatchingItemsMsg, { fs := fs2, manifest := (initClsync st now).manifest }) ∧
      ("repos/" ++ owner ++ "/" ++ repo) ∈ fs2.dirs ∧
      (∀ d ∈ SETTINGS_DIRS, (("repos/" ++ owner ++ "/" ++ repo) ++ "/" ++ d) ∈ fs2.dirs) ∧
      (("repos/" ++ owner ++ "/" ++ repo) ∉ st.fs.dirs → fs2 ≠ st.fs) := by
  refine ⟨pullInitFS owner repo st now, ?_, ?_, ?_, ?_⟩
  · unfold pullFromGitHub
    rw [hparse]
    dsimp only
    rw [hempty]
    rfl
  · exact mem_pullInitFS_of_base owner repo st now _
      ((mem_mkdirRec_dirs _ _ _).mpr (Or.inr (self_mem_pathAncestors _)))
  · intro d hd
    exact mem_pullInitFS_typeDir owner repo st now d hd _ (self_mem_pathAncestors _)
  · intro hno heq
    have hmem : ("repos/" ++ owner ++ "/" ++ repo) ∈ (pullInitFS owner repo st now).dirs :=
      mem_pullInitFS_of_base owner repo st now _
        ((mem_mkdirRec_dirs _ _ _).mpr (Or.inr (self_mem_pathAncestors _)))
    rw [heq] at hmem
    exact hno hmem

/-- Witness for C10 at a concrete pull of a repository holding only
`docs/readme.md`. -/
theorem c10_witness :
    ∃ fs2 : LocalFS,
      pullFromGitHub "o/r" false c10Tree c5Fetch 0 { fs := emptyFS, manifest := none } =
        (.error noMatchingItemsMsg,
         { fs := fs2, manifest := (initClsync { fs := emptyFS, manifest := none } 0).manifest }) ∧
      ("repos/" ++ "o" ++ "/" ++ "r") ∈ fs2.dirs ∧
      (∀ d ∈ SETTINGS_DIRS, (("repos/" ++ "o" ++ "/" ++ "r") ++ "/" ++ d) ∈ fs2.dirs) ∧
      (("repos/" ++ "o" ++ "/" ++ "r") ∉ ({ fs := emptyFS, manifest := none } : CacheState).fs.dirs →
        fs2 ≠ ({ fs := emptyFS, manifest := none } : CacheState).fs) :=
  c10_pull_error_after_mkdir "o/r" "o" "r" false c10Tree c5Fetch 0
    { fs := emptyFS, manifest := none } (by rfl) (by rfl)

/-! ## Claim C4 -/

theorem initClsync_base_dirs (st : CacheState) (now : Nat) :
    "local" ∈ (initClsync st now).fs.dirs ∧
    "repos" ∈ (initClsync st now).fs.dirs ∧
    "local/skills" ∈ (initClsync st now).fs.dirs ∧
    "local/agents" ∈ (initClsync st now).fs.dirs ∧
    "local/output-styles" ∈ (initClsync st now).fs.dirs := by
  unfold initClsync
  dsimp only
  simp only [SETTINGS_DIRS, List.foldl_cons, List.foldl_nil]
  refine ⟨?_, ?_, ?_, ?_, ?_⟩
  · exact (mem_mkdirRec_dirs _ _ _).mpr (Or.inl ((mem_mkdirRec_dirs _ _ _).mpr (Or.inl
      ((mem_mkdirRec_dirs _ _ _).mpr (Or.inl ((mem_mkdirRec_dirs _ _ _).mpr (Or.inl
      ((mem_mkdirRec_dirs _ _ _).mpr (Or.inr (self_mem_pathAncestors _))))))))))
  · exact (mem_mkdirRec_dirs _ _ _).mpr (Or.inl ((mem_mkdirRec_dirs _ _ _).mpr (Or.inl
      ((mem_mkdirRec_dirs _ _ _).mpr (Or.inl ((mem_mkdirRec_dirs _ _ _).mpr
      (Or.inr (self_mem_pathAncestors _))))))))
  · exact (mem_mkdirRec_dirs _ _ _).mpr (Or.inl ((mem_mkdirRec_dirs _ _ _).mpr (Or.inl
      ((mem_mkdirRec_dirs _ _ _).mpr (Or.inr (self_mem_pathAncestors _))))))
  · exact (mem_mkdirRec_dirs _ _ _).mpr (Or.inl ((mem_mkdirRec_dirs _ _ _).mpr
      (Or.inr (self_mem_pathAncestors _))))
  · exact (mem_mkdirRec_dirs _ _ _).mpr (Or.inr (self_mem_pathAncestors _))

/-- Claim C4: pulling twice with `force=false` and an unchanged remote
tree is idempotent — the second pull reports 0 downloads and every
filtered file skipped (and needs no fetch at all: `g` is arbitrary),
and the repository cache filesystem is left exactly as the first pull
left it. -/
theorem c4_pull_idempotent (url owner repo : String) (tree : List TreeEntry)
    (fetch g : String → Option String) (now1 now2 : Nat) (st st1 : CacheState) (r1 : PullResult)
    (hparse : parseRepoUrl url = .ok { owner := some owner, repo := some repo, branch := "main" })
    (h1 : pullFromGitHub url false tree fetch now1 st = (.ok r1, st1)) :
    (pullFromGitHub url false tree g now2 st1).1 =
      .ok { downloaded := 0, skipped := (settingsFilesOf tree).length, files := []
            repoPath := owner ++ "/" ++ repo } ∧
    (pullFromGitHub url false tree g now2 st1).2.fs = st1.fs := by
  unfold pullFromGitHub at h1
  rw [hparse] at h1
  dsimp only at h1
  by_cases hemp : (settingsFilesOf tree).isEmpty = true
  · rw [if_pos hemp] at h1
    exact absurd h1 (by simp)
  rw [if_neg hemp] at h1
  have hfold : SETTINGS_DIRS.foldl
      (fun a d => mkdirRec ("repos/" ++ owner ++ "/" ++ repo ++ "/" ++ d) a)
      (mkdirRec ("repos/" ++ owner ++ "/" ++ repo) (initClsync st now1).fs) =
      pullInitFS owner repo st now1 := rfl
  rw [hfold] at h1
  cases hloop : pullLoop ("repos/" ++ owner ++ "/" ++ repo) false fetch
      (settingsFilesOf tree) (pullInitFS owner repo st now1) 0 0 [] with
  | mk res fs3 =>
    rw [hloop] at h1
    cases res with
    | error e => exact absurd h1 (by simp)
    | ok out =>
      obtain ⟨dl, sk, files⟩ := out
      dsimp only at h1
      have hB := congrArg Prod.snd h1
      dsimp only at hB
      -- facts established by the first run
      have htargets : ∀ f ∈ settingsFilesOf tree,
          existsFS fs3 ("repos/" ++ owner ++ "/" ++ repo ++ "/" ++ f.path) = true :=
        pullLoop_ok_targets _ _ _ _ _ _ _ _ _ _ hloop
      have hdirs3 : ∀ q, q ∈ (pullInitFS owner repo st now1).dirs → q ∈ fs3.dirs := by
        intro q hq
        have hm := pullLoop_dirs_mono ("repos/" ++ owner ++ "/" ++ repo) false fetch
          (settingsFilesOf tree) (pullInitFS owner repo st now1) 0 0 [] q hq
        rw [hloop] at hm
        exact hm
      obtain ⟨hbl, hbr, hbs, hba, hbo⟩ := initClsync_base_dirs st now1
      have hinitsub : ∀ q, q ∈ (initClsync st now1).fs.dirs → q ∈ fs3.dirs := by
        intro q hq
        exact hdirs3 q (mem_pullInitFS_of_base owner repo st now1 q
          ((mem_mkdirRec_dirs _ _ _).mpr (Or.inl hq)))
      have hl3 : "local" ∈ fs3.dirs := hinitsub _ hbl
      have hr3 : "repos" ∈ fs3.dirs := hinitsub _ hbr
      have hs3 : "local/skills" ∈ fs3.dirs := hinitsub _ hbs
      have ha3 : "local/agents" ∈ fs3.dirs := hinitsub _ hba
      have ho3 : "local/output-styles" ∈ fs3.dirs := hinitsub _ hbo
      have hancRepo : ∀ q ∈ pathAncestors ("repos/" ++ owner ++ "/" ++ repo), q ∈ fs3.dirs := by
        intro q hq
        exact hdirs3 q (mem_pullInitFS_of_base owner repo st now1 q
          ((mem_mkdirRec_dirs _ _ _).mpr (Or.inr hq)))
      have hancType : ∀ d ∈ SETTINGS_DIRS,
          ∀ q ∈ pathAncestors (("repos/" ++ owner ++ "/" ++ repo) ++ "/" ++ d),
            q ∈ fs3.dirs := by
        intro d hd q hq
        exact hdirs3 q (mem_pullInitFS_typeDir owner repo st now1 d hd q hq)
      -- noop helpers for concrete store paths
      have hnoop1 : mkdirRec "local" fs3 = fs3 := by
        refine mkdirRec_noop _ _ ?_
        intro q hq
        rw [show pathAncestors "local" = ["local"] from by decide] at hq
        rw [List.mem_singleton] at hq
        rw [hq]
        exact hl3
      have hnoop2 : mkdirRec "repos" fs3 = fs3 := by
        refine mkdirRec_noop _ _ ?_
        intro q hq
        rw [show pathAncestors "repos" = ["repos"] from by decide] at hq
        rw [List.mem_singleton] at hq
        rw [hq]
        exact hr3
      have hnoop3 : mkdirRec "local/skills" fs3 = fs3 := by
        refine mkdirRec_noop _ _ ?_
        intro q hq
        rw [show pathAncestors "local/skills" = ["local", "local/skills"] from by decide] at hq
        rcases List.mem_cons.mp hq with rfl | hq2
        · exact hl3
        · rw [List.mem_singleton] at hq2
          rw [hq2]
          exact hs3
      have hnoop4 : mkdirRec "local/agents" fs3 = fs3 := by
        refine mkdirRec_noop _ _ ?_
        intro q hq
        rw [show pathAncestors "local/agents" = ["local", "local/agents"] from by decide] at hq
        rcases List.mem_cons.mp hq with rfl | hq2
        · exact hl3
        · rw [List.mem_singleton] at hq2
          rw [hq2]
          exact ha3
      have hnoop5 : mkdirRec "local/output-styles" fs3 = fs3 := by
        refine mkdirRec_noop _ _ ?_
        intro q hq
        rw [show pathAncestors "local/output-styles" = ["local", "local/output-styles"] from by
          decide] at hq
        rcases List.mem_cons.mp hq with rfl | hq2
        · exact hl3
        · rw [List.mem_singleton] at hq2
          rw [hq2]
          exact ho3
      have hnoopRepo : mkdirRec ("repos/" ++ owner ++ "/" ++ repo) fs3 = fs3 :=
        mkdirRec_noop _ _ hancRepo
      -- second run
      rw [← hB]
      unfold pullFromGitHub
      rw [hparse]
      dsimp only
      rw [if_neg hemp]
      rw [show initClsync
            { fs := fs3
              manifest := some { loadManifest (initClsync st now1).manifest with
                repos := setKV (loadManifest (initClsync st now1).manifest).repos
                  (owner ++ "/" ++ repo)
                  { url := url, last_pulled := now1, items_count := dl + sk }
                last_updated := some now1 } } now2 =
          { fs := fs3
            manifest := some { loadManifest (initClsync st now1).manifest with
              repos := setKV (loadManifest (initClsync st now1).manifest).repos
                (owner ++ "/" ++ repo)
                { url := url, last_pulled := now1, items_count := dl + sk }
              last_updated := some now1 } } from by
        unfold initClsync
        dsimp only
        simp only [SETTINGS_DIRS, List.foldl_cons, List.foldl_nil]
        rw [show ("local/" ++ "skills" : String) = "local/skills" from rfl,
            show ("local/" ++ "agents" : String) = "local/agents" from rfl,
            show ("local/" ++ "output-styles" : String) = "local/output-styles" from rfl]
        rw [hnoop1, hnoop2, hnoop3, hnoop4, hnoop5]]
      dsimp only
      rw [hnoopRepo]
      rw [show SETTINGS_DIRS.foldl
            (fun a d => mkdirRec ("repos/" ++ owner ++ "/" ++ repo ++ "/" ++ d) a) fs3 = fs3 from by
        simp only [SETTINGS_DIRS, List.foldl_cons, List.foldl_nil]
        rw [mkdirRec_noop _ _ (hancType "skills" (by decide)),
            mkdirRec_noop _ _ (hancType "agents" (by decide)),
            mkdirRec_noop _ _ (hancType "output-styles" (by decide))]]
      rw [pullLoop_all_skip ("repos/" ++ owner ++ "/" ++ repo) g (settingsFilesOf tree)
        fs3 0 0 [] htargets]
      dsimp only
      exact ⟨by rw [Nat.zero_add], rfl⟩

/-- Witness for C4: after a successful pull of the two-file tree, a
second pull — with a transfer that always fails, showing no fetch is
needed — downloads 0, skips both files and leaves the cache as is. -/
theorem c4_witness :
    (pullFromGitHub "o/r" false c5Tree (fun _ => none) 2 c4Run1.2).1 =
      .ok { downloaded := 0, skipped := (settingsFilesOf c5Tree).length, files := []
            repoPath := "o" ++ "/" ++ "r" } ∧
    (pullFromGitHub "o/r" false c5Tree (fun _ => none) 2 c4Run1.2).2.fs = c4Run1.2.fs :=
  c4_pull_idempotent "o/r" "o" "r" c5Tree c4Fetch (fun _ => none) 1 2
    { fs := emptyFS, manifest := none } c4Run1.2
    { downloaded := 2, skipped := 0, files := ["agents/a.md", "agents/b.md"], repoPath := "o/r" }
    (by rfl) (by rfl)

/-! ## Claim C7 -/

theorem setKV_append_absent {α : Type} (l : List (String × α)) (k : String) (v : α)
    (h : l.any (fun kv => kv.1 == k) = false) : setKV l k v = l ++ [(k, v)] := by
  induction l with
  | nil => rfl
  | cons kv0 rest ih =>
    obtain ⟨k0, v0⟩ := kv0
    rw [List.any_cons, Bool.or_eq_false_iff] at h
    have hk0 : ¬ k0 = k := by
      intro he
      rw [he] at h
      simpa using h.1
    rw [setKV_cons, if_neg hk0, ih h.2]
    rfl

theorem existsFS_false_any (fs : LocalFS) (q : String) (h : existsFS fs q = false) :
    fs.files.any (fun kv => kv.1 == q) = false := by
  unfold existsFS at h
  rw [Bool.or_eq_false_iff] at h
  exact h.1

/-- A fresh download loop: when no target exists yet, every fetch
succeeds, and no file's target collides with another file's target or
with a directory the other file's write creates, the loop downloads
every file in order and appends exactly those files to the store. -/
theorem pullLoop_fresh (repoDir : String) (force : Bool) (fetch : String → Option String)
    (files : List TreeEntry) :
    ∀ fs dl sk fl,
      (∀ f ∈ files, existsFS fs (repoDir ++ "/" ++ f.path) = false) →
      (∀ f ∈ files, (fetch f.path).isSome = true) →
      List.Pairwise (fun f1 f2 =>
        ¬ (repoDir ++ "/" ++ f2.path) = (repoDir ++ "/" ++ f1.path) ∧
        (repoDir ++ "/" ++ f2.path) ∉ pathAncestors (dirnameStr (repoDir ++ "/" ++ f1.path)))
        files →
      ∃ fs2, pullLoop repoDir force fetch files fs dl sk fl =
          (.ok (dl + files.length, sk, fl ++ files.map TreeEntry.path), fs2) ∧
        fs2.files = fs.files ++ files.map
          (fun f => (repoDir ++ "/" ++ f.path, (fetch f.path).getD "")) := by
  induction files with
  | nil =>
    intro fs dl sk fl _ _ _
    exact ⟨fs, by simp [pullLoop], by simp⟩
  | cons f rest ih =>
    intro fs dl sk fl hfresh hfetch hpw
    have hex : existsFS fs (repoDir ++ "/" ++ f.path) = false := hfresh f (by simp)
    have hcond : (!force && existsFS fs (repoDir ++ "/" ++ f.path)) = false := by
      rw [hex, Bool.and_false]
    obtain ⟨c, hc⟩ := Option.isSome_iff_exists.mp (hfetch f (by simp))
    have hpwf := (List.pairwise_cons.mp hpw).1
    have hpwr := (List.pairwise_cons.mp hpw).2
    have hfresh2 : ∀ f2 ∈ rest,
        existsFS (writeFileFS (mkdirRec (dirnameStr (repoDir ++ "/" ++ f.path)) fs)
          (repoDir ++ "/" ++ f.path) c) (repoDir ++ "/" ++ f2.path) = false := by
      intro f2 hf2
      obtain ⟨hne2, hnanc⟩ := hpwf f2 hf2
      by_contra hcon
      rw [Bool.not_eq_false] at hcon
      rcases (existsFS_writeFileFS _ _ _ _).mp hcon with hcon2 | hcon2
      · rcases (existsFS_mkdirRec _ _ _).mp hcon2 with hcon3 | hcon3
        · rw [hfresh f2 (by simp [hf2])] at hcon3
          exact absurd hcon3 (by simp)
        · exact hnanc hcon3
      · exact hne2 hcon2.symm
    obtain ⟨fs2, hloop, hfiles⟩ := ih
      (writeFileFS (mkdirRec (dirnameStr (repoDir ++ "/" ++ f.path)) fs)
        (repoDir ++ "/" ++ f.path) c)
      (dl + 1) sk (fl ++ [f.path])
      hfresh2 (fun f2 hf2 => hfetch f2 (by simp [hf2])) hpwr
    refine ⟨fs2, ?_, ?_⟩
    · unfold pullLoop
      dsimp only
      rw [hcond]
      simp only [Bool.false_eq_true, if_false]
      rw [hc]
      dsimp only
      rw [hloop]
      have h1 : dl + 1 + rest.length = dl + (rest.length + 1) := by omega
      have h2 : (fl ++ [f.path]) ++ rest.map TreeEntry.path =
          fl ++ (f.path :: rest.map TreeEntry.path) := by simp
      rw [h1, h2]
      rfl
    · rw [hfiles]
      show setKV (mkdirRec (dirnameStr (repoDir ++ "/" ++ f.path)) fs).files
          (repoDir ++ "/" ++ f.path) c ++ _ = _
      rw [mkdirRec_files]
      rw [setKV_append_absent _ _ _ (existsFS_false_any _ _ hex)]
      rw [List.append_assoc]
      have hcg : ((fetch f.path).getD "") = c := by rw [hc]; rfl
      simp [hcg]

/-- Claim C7: pull filters the fetched tree to the blobs under the
three type directories and downloads exactly those, in tree order:
starting from a fresh cache, the result reports every filtered path as
downloaded and the cache gains exactly those files. -/
theorem c7_pull_downloads_filtered (url owner repo : String) (tree : List TreeEntry)
    (fetch : String → Option String) (now : Nat) (st : CacheState)
    (hparse : parseRepoUrl url = .ok { owner := some owner, repo := some repo, branch := "main" })
    (hne : ¬ (settingsFilesOf tree).isEmpty = true)
    (hfresh : ∀ f ∈ settingsFilesOf tree,
      existsFS (pullInitFS owner repo st now)
        ("repos/" ++ owner ++ "/" ++ repo ++ "/" ++ f.path) = false)
    (hfetch : ∀ f ∈ settingsFilesOf tree, (fetch f.path).isSome = true)
    (hsep : List.Pairwise (fun f1 f2 =>
      ¬ ("repos/" ++ owner ++ "/" ++ repo ++ "/" ++ f2.path) =
          ("repos/" ++ owner ++ "/" ++ repo ++ "/" ++ f1.path) ∧
      ("repos/" ++ owner ++ "/" ++ repo ++ "/" ++ f2.path) ∉
        pathAncestors (dirnameStr ("repos/" ++ owner ++ "/" ++ repo ++ "/" ++ f1.path)))
      (settingsFilesOf tree)) :
    ∃ st2 : CacheState,
      pullFromGitHub url false tree fetch now st =
        (.ok { downloaded := (settingsFilesOf tree).length, skipped := 0
               files := (settingsFilesOf tree).map TreeEntry.path
               repoPath := owner ++ "/" ++ repo }, st2) ∧
      st2.fs.files = (pullInitFS owner repo st now).files ++
        (settingsFilesOf tree).map
          (fun f => ("repos/" ++ owner ++ "/" ++ repo ++ "/" ++ f.path,
            (fetch f.path).getD "")) := by
  obtain ⟨fs2, hloop, hfiles⟩ := pullLoop_fresh ("repos/" ++ owner ++ "/" ++ repo) false fetch
    (settingsFilesOf tree) (pullInitFS owner repo st now) 0 0 [] hfresh hfetch hsep
  refine ⟨{ fs := fs2
            manifest := some { loadManifest (initClsync st now).manifest with
              repos := setKV (loadManifest (initClsync st now).manifest).repos
                (owner ++ "/" ++ repo)
                { url := url, last_pulled := now
                  items_count := 0 + (settingsFilesOf tree).length + 0 }
              last_updated := some now } }, ?_, hfiles⟩
  unfold pullFromGitHub
  rw [hparse]
  dsimp only
  rw [if_neg hne]
  have hfold : SETTINGS_DIRS.foldl
      (fun a d => mkdirRec ("repos/" ++ owner ++ "/" ++ repo ++ "/" ++ d) a)
      (mkdirRec ("repos/" ++ owner ++ "/" ++ repo) (initClsync st now).fs) =
      pullInitFS owner repo st now := rfl
  rw [hfold, hloop]
  dsimp only
  rw [Nat.zero_add, List.nil_append]

/-- Witness for C7: the spec scenario — a tree holding
`skills/x/SKILL.md`, `agents/y.md` and an unrelated `docs/readme.md`
downloads exactly the two settings files. -/
theorem c7_witness :
    ∃ st2 : CacheState,
      pullFromGitHub "o/r" false c7Tree c7Fetch 0 { fs := emptyFS, manifest := none } =
        (.ok { downloaded := 2, skipped := 0
               files := ["skills/x/SKILL.md", "agents/y.md"], repoPath := "o/r" }, st2) ∧
      st2.fs.files =
        [("repos/o/r/skills/x/SKILL.md", "---\ndescription: x\n---"),
         ("repos/o/r/agents/y.md", "y body")] := by
  obtain ⟨st2, h1, h2⟩ := c7_pull_downloads_filtered "o/r" "o" "r" c7Tree c7Fetch 0
    { fs := emptyFS, manifest := none } (by rfl) (by decide) (by decide) (by decide) (by decide)
  exact ⟨st2, h1.trans (by rfl), h2.trans (by rfl)⟩

/-! ## Claim C5 -/

/-- Every file handed to the `pullSettings` loop is recorded with
exactly one per-file entry, in order, whatever happens to it — the
loop catches a failed download, records it as `failed` with the fetch
error message, and continues. -/
theorem pullSettingsLoop_records (force dryRun : Bool) (fetch : String → Option String)
    (files : List TreeEntry) :
    ∀ fs res,
      ((pullSettingsLoop force dryRun fetch files fs res).1.files.map FileRec.path =
        res.files.map FileRec.path ++ files.map TreeEntry.path) ∧
      (∀ rec ∈ (pullSettingsLoop force dryRun fetch files fs res).1.files,
        rec ∈ res.files ∨ rec.status = "skipped" ∨ rec.status = "would-download" ∨
        rec.status = "downloaded" ∨
        (rec.status = "failed" ∧ rec.error = some ("Failed to fetch file: " ++ rec.path))) := by
  induction files with
  | nil =>
    intro fs res
    exact ⟨by simp [pullSettingsLoop], fun rec hrec => Or.inl hrec⟩
  | cons f rest ih =>
    intro fs res
    unfold pullSettingsLoop
    by_cases h1 : (!force && existsFS fs f.path) = true
    · rw [if_pos h1]
      obtain ⟨ihm, ihs⟩ := ih fs { res with skipped := res.skipped + 1
                                            files := res.files ++ [⟨f.path, "skipped", none⟩] }
      constructor
      · rw [ihm]
        simp
      · intro rec hrec
        rcases ihs rec hrec with hmem | hs
        · rcases List.mem_append.mp hmem with hmem2 | hmem2
          · exact Or.inl hmem2
          · rw [List.mem_singleton] at hmem2
            rw [hmem2]
            exact Or.inr (Or.inl rfl)
        · exact Or.inr hs
    · rw [if_neg h1]
      by_cases h2 : dryRun = true
      · rw [if_pos h2]
        obtain ⟨ihm, ihs⟩ := ih fs { res with downloaded := res.downloaded + 1
                                              files := res.files ++ [⟨f.path, "would-download", none⟩] }
        constructor
        · rw [ihm]
          simp
        · intro rec hrec
          rcases ihs rec hrec with hmem | hs
          · rcases List.mem_append.mp hmem with hmem2 | hmem2
            · exact Or.inl hmem2
            · rw [List.mem_singleton] at hmem2
              rw [hmem2]
              exact Or.inr (Or.inr (Or.inl rfl))
          · exact Or.inr hs
      · rw [if_neg h2]
        cases hf : fetch f.path with
        | none =>
          dsimp only
          obtain ⟨ihm, ihs⟩ := ih (mkdirRec (dirnameStr f.path) fs)
            { res with failed := res.failed + 1
                       files := res.files ++
                         [⟨f.path, "failed", some ("Failed to fetch file: " ++ f.path)⟩] }
          constructor
          · rw [ihm]
            simp
          · intro rec hrec
            rcases ihs rec hrec with hmem | hs
            · rcases List.mem_append.mp hmem with hmem2 | hmem2
              · exact Or.inl hmem2
              · rw [List.mem_singleton] at hmem2
                rw [hmem2]
                exact Or.inr (Or.inr (Or.inr (Or.inr ⟨rfl, rfl⟩)))
            · exact Or.inr hs
        | some content =>
          dsimp only
          obtain ⟨ihm, ihs⟩ := ih
            (writeFileFS (mkdirRec (dirnameStr f.path) fs) f.path content)
            { res with downloaded := res.downloaded + 1
                       files := res.files ++ [⟨f.path, "downloaded", none⟩] }
          constructor
          · rw [ihm]
            simp
          · intro rec hrec
            rcases ihs rec hrec with hmem | hs
            · rcases List.mem_append.mp hmem with hmem2 | hmem2
              · exact Or.inl hmem2
              · rw [List.mem_singleton] at hmem2
                rw [hmem2]
                exact Or.inr (Or.inr (Or.inr (Or.inl rfl)))
            · exact Or.inr hs

/-- Claim C5 (amended, for `pullSettings`): a pull over a nonempty
filtered file set always returns a result (never throws past the
filter): every filtered file gets exactly one per-file record in tree
order, a failed download is recorded as `failed` carrying the fetch
error and does not abort the remaining files.  (`pullFromGitHub`, by
contrast, aborts — see `c5_counterexample`.) -/
theorem c5_pullSettings_no_abort (url : String) (force dryRun : Bool) (tree : List TreeEntry)
    (fetch : String → Option String) (fs : LocalFS) (ref : RepoRef)
    (hparse : parseRepoUrl url = .ok ref)
    (hne : ¬ (settingsFilesPS tree).isEmpty = true) :
    ∃ res fs1, pullSettings url force dryRun tree fetch fs = (.ok res, fs1) ∧
      res.files.map FileRec.path = (settingsFilesPS tree).map TreeEntry.path ∧
      ∀ rec ∈ res.files,
        rec.status = "skipped" ∨ rec.status = "would-download" ∨ rec.status = "downloaded" ∨
        (rec.status = "failed" ∧ rec.error = some ("Failed to fetch file: " ++ rec.path)) := by
  obtain ⟨hm, hs⟩ := pullSettingsLoop_records force dryRun fetch (settingsFilesPS tree) fs
    { downloaded := 0, skipped := 0, failed := 0, files := [] }
  cases hl : pullSettingsLoop force dryRun fetch (settingsFilesPS tree) fs
      { downloaded := 0, skipped := 0, failed := 0, files := [] } with
  | mk res fs1 =>
    rw [hl] at hm hs
    dsimp only at hm hs
    refine ⟨res, fs1, ?_, ?_, ?_⟩
    · unfold pullSettings
      rw [hparse]
      dsimp only
      rw [if_neg hne, hl]
    · simpa using hm
    · intro rec hrec
      rcases hs rec hrec with hmem | hok
      · exact absurd hmem (by simp)
      · exact hok

/-- Witness for C5: pulling the two-file tree where `agents/a.md`
fails to download still records both files, the first as `failed`. -/
theorem c5_witness :
    ∃ res fs1, pullSettings "o/r" false false c5Tree c5Fetch emptyFS = (.ok res, fs1) ∧
      res.files.map FileRec.path = (settingsFilesPS c5Tree).map TreeEntry.path ∧
      ∀ rec ∈ res.files,
        rec.status = "skipped" ∨ rec.status = "would-download" ∨ rec.status = "downloaded" ∨
        (rec.status = "failed" ∧ rec.error = some ("Failed to fetch file: " ++ rec.path)) :=
  c5_pullSettings_no_abort "o/r" false false c5Tree c5Fetch emptyFS
    { owner := some "o", repo := some "r", branch := "main" } (by rfl) (by decide)

/-- Counterexample to C5 as stated: in `pullFromGitHub` the failed
download of `agents/a.md` throws out of the whole pull — the error
propagates and the remaining file `agents/b.md` is neither downloaded
nor recorded (no file is written at all). -/
theorem c5_counterexample :
    (pullFromGitHub "o/r" false c5Tree c5Fetch 0 { fs := emptyFS, manifest := none }).1 =
      .error "Failed to fetch: agents/a.md" ∧
    (pullFromGitHub "o/r" false c5Tree c5Fetch 0 { fs := emptyFS, manifest := none }).2.fs.files
      = [] :=
  ⟨rfl, rfl⟩

/-! ## Scope-mover lemmas -/

theorem asString_toList (s : String) : s.toList.asString = s := by
  cases s
  rfl

theorem splitOnCharCL_no_sep (sep : Char) (a : List Char) (ha : ∀ c ∈ a, ¬ c = sep) :
    splitOnCharCL sep a = [a] := by
  induction a with
  | nil => rfl
  | cons c rest ih =>
    unfold splitOnCharCL
    rw [if_neg (ha c (by simp))]
    rw [ih (fun c2 hc2 => ha c2 (by simp [hc2]))]

theorem splitOnCharCL_cons (sep c : Char) (l : List Char) :
    splitOnCharCL sep (c :: l) =
      if c = sep then [] :: splitOnCharCL sep l
      else
        match splitOnCharCL sep l with
        | [] => [[c]]
        | l2 :: ls => (c :: l2) :: ls := rfl

theorem splitOnCharCL_append_sep (sep : Char) (a rest : List Char)
    (ha : ∀ c ∈ a, ¬ c = sep) :
    splitOnCharCL sep (a ++ sep :: rest) = a :: splitOnCharCL sep rest := by
  induction a with
  | nil =>
    show splitOnCharCL sep (sep :: rest) = [] :: splitOnCharCL sep rest
    rw [splitOnCharCL_cons, if_pos rfl]
  | cons c a2 ih =>
    show splitOnCharCL sep (c :: (a2 ++ sep :: rest)) = (c :: a2) :: splitOnCharCL sep rest
    rw [splitOnCharCL_cons, if_neg (ha c (by simp))]
    rw [ih (fun c2 hc2 => ha c2 (by simp [hc2]))]

theorem noSlash_chars (f : String) (h : noSlash f = true) : ∀ c ∈ f.toList, ¬ c = '/' := by
  intro c hc he
  unfold noSlash at h
  rw [Bool.not_eq_true'] at h
  simp at h
  subst he
  exact h hc

theorem splitRelPath_dir (d f : String)
    (hd : d = "skills" ∨ d = "agents" ∨ d = "output-styles")
    (hf : noSlash f = true) :
    splitRelPath (d ++ "/" ++ f) = some (d, f) := by
  have hsplit : splitOnCharCL '/' (d ++ "/" ++ f).toList = [d.toList, f.toList] := by
    have hdata : (d ++ "/" ++ f).toList = d.toList ++ '/' :: f.toList := by
      show (d ++ "/" ++ f).data = d.data ++ '/' :: f.data
      rw [String.data_append, String.data_append, List.append_assoc]
      rfl
    rw [hdata]
    have hnod : ∀ c ∈ d.toList, ¬ c = '/' := by
      rcases hd with rfl | rfl | rfl <;> decide
    rw [splitOnCharCL_append_sep '/' d.toList f.toList hnod]
    rw [splitOnCharCL_no_sep '/' f.toList (noSlash_chars f hf)]
  unfold splitRelPath
  rw [hsplit]
  show some (d.toList.asString, f.toList.asString) = some (d, f)
  rw [asString_toList, asString_toList]

theorem findEntry_nodup (es : List FsEntry) (e : FsEntry)
    (hnd : namesNodupB es = true) (he : e ∈ es) :
    es.find? (fun x => x.name == e.name) = some e := by
  induction es with
  | nil => exact absurd he (by simp)
  | cons x rest ih =>
    obtain ⟨hx, hnd2⟩ := namesNodupB_cons hnd
    rcases List.mem_cons.mp he with rfl | he2
    · rw [List.find?_cons_of_pos]
      simp
    · rw [List.find?_cons_of_neg]
      · exact ih hnd2 he2
      · have hxe : ¬ x.name = e.name := fun heq => hx e he2 heq.symm
        simpa using hxe

theorem entry_unique_nodup (es : List FsEntry) (e e2 : FsEntry)
    (hnd : namesNodupB es = true) (he : e ∈ es) (he2 : e2 ∈ es)
    (hname : e2.name = e.name) : e2 = e := by
  induction es with
  | nil => exact absurd he (by simp)
  | cons x rest ih =>
    obtain ⟨hx, hnd2⟩ := namesNodupB_cons hnd
    rcases List.mem_cons.mp he with rfl | hem
    · rcases List.mem_cons.mp he2 with rfl | he2m
      · rfl
      · exact absurd hname (hx e2 he2m)
    · rcases List.mem_cons.mp he2 with rfl | he2m
      · exact absurd hname.symm (hx e hem)
      · exact ih hnd2 hem he2m

theorem scanEntry_set_mtime (d : String) (e : FsEntry) (it : Item) (m : Nat)
    (h : scanEntry d e = some it) :
    scanEntry d ⟨e.name, e.node, m⟩ = some { it with updated_at := m } := by
  cases hn : e.node with
  | dir files =>
    by_cases hds : d = "skills"
    · subst hds
      cases hl : lookupKV files "SKILL.md" with
      | none => simp [scanEntry, hn, hl] at h
      | some c =>
        have h2 : mkItemObj "skill" e.name ("skills/" ++ e.name)
            (parseMetadata c) e.mtime = it := by
          simpa [scanEntry, hn, hl] using h
        have h3 : scanEntry "skills" ⟨e.name, FsNode.dir files, m⟩ =
            some (mkItemObj "skill" e.name ("skills/" ++ e.name) (parseMetadata c) m) := by
          simp [scanEntry, hl]
        rw [h3, ← h2]
        rfl
    · simp [scanEntry, hn, hds] at h
  | file c =>
    by_cases hmd : strEndsWith e.name ".md" = true
    · have h2 : mkItemObj (if d = "agents" then "agent" else "output-style")
          (jsReplaceFirst e.name ".md") (d ++ "/" ++ e.name)
          (parseMetadata c) e.mtime = it := by
        simpa [scanEntry, hn, hmd] using h
      have h3 : scanEntry d ⟨e.name, FsNode.file c, m⟩ =
          some (mkItemObj (if d = "agents" then "agent" else "output-style")
            (jsReplaceFirst e.name ".md") (d ++ "/" ++ e.name) (parseMetadata c) m) := by
        simp [scanEntry, hmd]
      rw [h3, ← h2]
      rfl
    · simp [scanEntry, hn, hmd] at h

theorem find?_append_right {α : Type} (l1 l2 : List α) (p : α → Bool)
    (h : ∀ x ∈ l1, ¬ p x = true) :
    (l1 ++ l2).find? p = l2.find? p := by
  induction l1 with
  | nil => rfl
  | cons x rest ih =>
    rw [List.cons_append, List.find?_cons_of_neg _ (h x (by simp))]
    exact ih (fun y hy => h y (by simp [hy]))

theorem putEntryList_absent (es : List FsEntry) (e : FsEntry)
    (h : ∀ x ∈ es, ¬ x.name = e.name) : putEntryList es e = es ++ [e] := by
  induction es with
  | nil => rfl
  | cons x rest ih =>
    unfold putEntryList
    rw [if_neg (by simpa using h x (by simp))]
    rw [ih (fun y hy => h y (by simp [hy]))]
    rfl

theorem entryCleanB_noSlash {d : String} {e : FsEntry} (hce : entryCleanB d e = true) :
    noSlash e.name = true := by
  unfold entryCleanB at hce
  rw [Bool.and_eq_true] at hce
  exact hce.1

/-- A conflict-free promote of a clean item moves the directory entry
wholesale: it is removed from the project directory and written, with
the same name and node, into the same settings directory of the user
root. -/
theorem promote_clean_step (d : String)
    (hd3 : d = "skills" ∨ d = "agents" ∨ d = "output-styles")
    (P U : Root) (e : FsEntry) (it : Item) (now : Nat)
    (hfind : (scanItems P).find? (fun i => i.name == it.name) = some it)
    (he : e ∈ P.entries d)
    (hnodup : namesNodupB (P.entries d) = true)
    (hce : entryCleanB d e = true)
    (hscan : scanEntry d e = some it)
    (hconf : itemExistsInTarget it.name it.type U = none) :
    promoteItem it.name none false { project := P, user := U } now =
      .ok ({ item := it, fromDir := ".claude", toDir := "~/.claude",
             originalName := it.name, newName := it.name, renamed := false },
           { project := P.removeName d e.name, user := U.put d ⟨e.name, e.node, now⟩ }) := by
  have hslash : noSlash e.name = true := entryCleanB_noSlash hce
  unfold promoteItem
  dsimp only
  rw [hfind]
  dsimp only
  rw [hconf]
  rw [if_neg (by decide)]
  rcases hd3 with rfl | rfl | rfl
  · obtain ⟨htype, hnm, hpath⟩ := scanEntry_skills_char e hce it hscan
    have hsp0 := splitRelPath_dir "skills" e.name (Or.inl rfl) hslash
    have hsp : splitRelPath ("skills/" ++ e.name) = some ("skills", e.name) := hsp0
    have hrn : readNode P ("skills/" ++ e.name) = some e.node := by
      unfold readNode
      rw [hsp]
      dsimp only
      rw [show ((P.get "skills").getD []) = P.entries "skills" from rfl]
      rw [findEntry_nodup _ e hnodup he]
      rfl
    have hrm : removeAtPath P ("skills/" ++ e.name) = P.removeName "skills" e.name := by
      unfold removeAtPath
      rw [hsp]
    rw [hpath, hrn]
    dsimp only
    rw [htype]
    simp only [optOrDefault, beq_self_eq_true, if_true, hrm, hnm, Bool.not_true]
  · obtain ⟨htype0, hnm, hpath, c, hnode⟩ :=
      scanEntry_mdfile_char "agents" (Or.inl rfl) e hce it hscan
    have htype : it.type = "agent" := by simpa using htype0
    have hsp0 := splitRelPath_dir "agents" e.name (Or.inr (Or.inl rfl)) hslash
    have hrn : readNode P ("agents" ++ "/" ++ e.name) = some e.node := by
      unfold readNode
      rw [hsp0]
      dsimp only
      rw [show ((P.get "agents").getD []) = P.entries "agents" from rfl]
      rw [findEntry_nodup _ e hnodup he]
      rfl
    have hrm : removeAtPath P ("agents" ++ "/" ++ e.name) = P.removeName "agents" e.name := by
      unfold removeAtPath
      rw [hsp0]
    rw [hpath, hrn]
    dsimp only
    rw [htype, hnode]
    dsimp only
    rw [if_neg (by decide)]
    simp only [optOrDefault, hrm, hnm, beq_self_eq_true, Bool.not_true,
      show (("agent" : String) == "skill") = false from rfl, Bool.false_eq_true,
      if_false, if_true]
  · obtain ⟨htype0, hnm, hpath, c, hnode⟩ :=
      scanEntry_mdfile_char "output-styles" (Or.inr rfl) e hce it hscan
    have htype : it.type = "output-style" := by simpa using htype0
    have hsp0 := splitRelPath_dir "output-styles" e.name (Or.inr (Or.inr rfl)) hslash
    have hrn : readNode P ("output-styles" ++ "/" ++ e.name) = some e.node := by
      unfold readNode
      rw [hsp0]
      dsimp only
      rw [show ((P.get "output-styles").getD []) = P.entries "output-styles" from rfl]
      rw [findEntry_nodup _ e hnodup he]
      rfl
    have hrm : removeAtPath P ("output-styles" ++ "/" ++ e.name) =
        P.removeName "output-styles" e.name := by
      unfold removeAtPath
      rw [hsp0]
    rw [hpath, hrn]
    dsimp only
    rw [htype, hnode]
    dsimp only
    rw [if_neg (by decide)]
    simp only [optOrDefault, hrm, hnm, beq_self_eq_true, Bool.not_true,
      show (("output-style" : String) == "skill") = false from rfl,
      show (("output-style" : String) == "agent") = false from rfl, Bool.false_eq_true,
      if_false, if_true]

/-- The symmetric conflict-free demote of a clean item. -/
theorem demote_clean_step (d : String)
    (hd3 : d = "skills" ∨ d = "agents" ∨ d = "output-styles")
    (P U : Root) (e : FsEntry) (it : Item) (now : Nat)
    (hfind : (scanItems U).find? (fun i => i.name == it.name) = some it)
    (he : e ∈ U.entries d)
    (hnodup : namesNodupB (U.entries d) = true)
    (hce : entryCleanB d e = true)
    (hscan : scanEntry d e = some it)
    (hconf : itemExistsInTarget it.name it.type P = none) :
    demoteItem it.name none false { project := P, user := U } now =
      .ok ({ item := it, fromDir := "~/.claude", toDir := ".claude",
             originalName := it.name, newName := it.name, renamed := false },
           { project := P.put d ⟨e.name, e.node, now⟩, user := U.removeName d e.name }) := by
  have hslash : noSlash e.name = true := entryCleanB_noSlash hce
  unfold demoteItem
  dsimp only
  rw [hfind]
  dsimp only
  rw [hconf]
  rw [if_neg (by decide)]
  rcases hd3 with rfl | rfl | rfl
  · obtain ⟨htype, hnm, hpath⟩ := scanEntry_skills_char e hce it hscan
    have hsp0 := splitRelPath_dir "skills" e.name (Or.inl rfl) hslash
    have hsp : splitRelPath ("skills/" ++ e.name) = some ("skills", e.name) := hsp0
    have hrn : readNode U ("skills/" ++ e.name) = some e.node := by
      unfold readNode
      rw [hsp]
      dsimp only
      rw [show ((U.get "skills").getD []) = U.entries "skills" from rfl]
      rw [findEntry_nodup _ e hnodup he]
      rfl
    have hrm : removeAtPath U ("skills/" ++ e.name) = U.removeName "skills" e.name := by
      unfold removeAtPath
      rw [hsp]
    rw [hpath, hrn]
    dsimp only
    rw [htype]
    simp only [optOrDefault, beq_self_eq_true, if_true, hrm, hnm, Bool.not_true]
  · obtain ⟨htype0, hnm, hpath, c, hnode⟩ :=
      scanEntry_mdfile_char "agents" (Or.inl rfl) e hce it hscan
    have htype : it.type = "agent" := by simpa using htype0
    have hsp0 := splitRelPath_dir "agents" e.name (Or.inr (Or.inl rfl)) hslash
    have hrn : readNode U ("agents" ++ "/" ++ e.name) = some e.node := by
      unfold readNode
      rw [hsp0]
      dsimp only
      rw [show ((U.get "agents").getD []) = U.entries "agents" from rfl]
      rw [findEntry_nodup _ e hnodup he]
      rfl
    have hrm : removeAtPath U ("agents" ++ "/" ++ e.name) = U.removeName "agents" e.name := by
      unfold removeAtPath
      rw [hsp0]
    rw [hpath, hrn]
    dsimp only
    rw [htype, hnode]
    dsimp only
    rw [if_neg (by decide)]
    simp only [optOrDefault, hrm, hnm, beq_self_eq_true, Bool.not_true,
      show (("agent" : String) == "skill") = false from rfl, Bool.false_eq_true,
      if_false, if_true]
  · obtain ⟨htype0, hnm, hpath, c, hnode⟩ :=
      scanEntry_mdfile_char "output-styles" (Or.inr rfl) e hce it hscan
    have htype : it.type = "output-style" := by simpa using htype0
    have hsp0 := splitRelPath_dir "output-styles" e.name (Or.inr (Or.inr rfl)) hslash
    have hrn : readNode U ("output-styles" ++ "/" ++ e.name) = some e.node := by
      unfold readNode
      rw [hsp0]
      dsimp only
      rw [show ((U.get "output-styles").getD []) = U.entries "output-styles" from rfl]
      rw [findEntry_nodup _ e hnodup he]
      rfl
    have hrm : removeAtPath U ("output-styles" ++ "/" ++ e.name) =
        U.removeName "output-styles" e.name := by
      unfold removeAtPath
      rw [hsp0]
    rw [hpath, hrn]
    dsimp only
    rw [htype, hnode]
    dsimp only
    rw [if_neg (by decide)]
    simp only [optOrDefault, hrm, hnm, beq_self_eq_true, Bool.not_true,
      show (("output-style" : String) == "skill") = false from rfl,
      show (("output-style" : String) == "agent") = false from rfl, Bool.false_eq_true,
      if_false, if_true]

/-! ## Claim C9 -/

/-- Claim C9 (amended): with both roots holding an agent `notifier`,
`demote("notifier")` with no flags throws the Conflict error with
suggestion `notifier-1`, and `demote("notifier", {rename:"notifier-1"})`
succeeds, leaving the *project* root's pre-existing `notifier` item
untouched, adding `notifier-1` beside it, and *removing* `notifier`
from the user root (the move deletes its source — the claim's "user
root's notifier is untouched" is refuted by `c9_counterexample`). -/
theorem c9_demote_conflict_rename (c1 c2 : String) (t1 t2 now : Nat)
    (hc1 : mdCleanB (parseMetadata c1) = true)
    (hc2 : mdCleanB (parseMetadata c2) = true) :
    demoteItem "notifier" none false (c9State c1 c2 t1 t2) now =
      .error (demoteConflictMsg "notifier" "notifier-1") ∧
    demoteItem "notifier" (some "notifier-1") false (c9State c1 c2 t1 t2) now =
      .ok ({ item := { type := "agent", name := "notifier", path := "agents/notifier.md",
                       metadata := parseMetadata c1, updated_at := t1 },
             fromDir := "~/.claude", toDir := ".claude",
             originalName := "notifier", newName := "notifier-1", renamed := true },
           { project := { skills := some []
                          agents := some [⟨"notifier.md", .file c2, t2⟩,
                                          ⟨"notifier-1.md", .file c1, now⟩]
                          outputStyles := some [] }
             user := { skills := some [], agents := some [], outputStyles := some [] } }) := by
  have hU : scanItems (c9State c1 c2 t1 t2).user =
      [{ type := "agent", name := "notifier", path := "agents/notifier.md",
         metadata := parseMetadata c1, updated_at := t1 }] := by
    rw [show scanItems (c9State c1 c2 t1 t2).user =
      [mkItemObj "agent" "notifier" "agents/notifier.md" (parseMetadata c1) t1] from rfl]
    rw [mkItemObj_clean _ _ _ _ _ hc1]
  have hP : scanItems (c9State c1 c2 t1 t2).project =
      [{ type := "agent", name := "notifier", path := "agents/notifier.md",
         metadata := parseMetadata c2, updated_at := t2 }] := by
    rw [show scanItems (c9State c1 c2 t1 t2).project =
      [mkItemObj "agent" "notifier" "agents/notifier.md" (parseMetadata c2) t2] from rfl]
    rw [mkItemObj_clean _ _ _ _ _ hc2]
  have hfindU : (scanItems (c9State c1 c2 t1 t2).user).find? (fun i => i.name == "notifier") =
      some { type := "agent", name := "notifier", path := "agents/notifier.md",
             metadata := parseMetadata c1, updated_at := t1 } := by
    rw [hU]
    rfl
  have hex : itemExistsInTarget "notifier" "agent" (c9State c1 c2 t1 t2).project =
      some { type := "agent", name := "notifier", path := "agents/notifier.md",
             metadata := parseMetadata c2, updated_at := t2 } := by
    unfold itemExistsInTarget
    rw [hP]
    rfl
  have hfree : itemExistsInTarget (nthCandidate "notifier" 1) "agent"
      (c9State c1 c2 t1 t2).project = none := by
    unfold itemExistsInTarget
    rw [hP]
    rfl
  have hcoll : ∀ j, j < 1 →
      (itemExistsInTarget (nthCandidate "notifier" j) "agent"
        (c9State c1 c2 t1 t2).project).isSome = true := by
    intro j hj
    have hj0 : j = 0 := by omega
    subst hj0
    rw [show nthCandidate "notifier" 0 = "notifier" from rfl, hex]
    rfl
  constructor
  · unfold demoteItem
    dsimp only
    rw [hfindU]
    dsimp only
    rw [hex]
    rw [if_pos (by rfl)]
    rw [getUniqueName_eq "notifier" "agent" (c9State c1 c2 t1 t2).project 1 hcoll hfree]
    rfl
  · unfold demoteItem
    dsimp only
    rw [hfindU]
    dsimp only
    rw [hex]
    rw [if_neg (fun h => Bool.noConfusion h)]
    rfl

/-- Witness for C9 at concrete file contents. -/
theorem c9_witness :
    demoteItem "notifier" none false (c9State "U" "P" 1 2) 5 =
      .error (demoteConflictMsg "notifier" "notifier-1") ∧
    demoteItem "notifier" (some "notifier-1") false (c9State "U" "P" 1 2) 5 =
      .ok ({ item := { type := "agent", name := "notifier", path := "agents/notifier.md",
                       metadata := parseMetadata "U", updated_at := 1 },
             fromDir := "~/.claude", toDir := ".claude",
             originalName := "notifier", newName := "notifier-1", renamed := true },
           { project := { skills := some []
                          agents := some [⟨"notifier.md", .file "P", 2⟩,
                                          ⟨"notifier-1.md", .file "U", 5⟩]
                          outputStyles := some [] }
             user := { skills := some [], agents := some [], outputStyles := some [] } }) :=
  c9_demote_conflict_rename "U" "P" 1 2 5 (by decide) (by decide)

/-- Counterexample to C9 as stated: after the successful
`demote("notifier", {rename:"notifier-1"})` the user root's `notifier`
is *not* untouched — the item has been removed from the user root (the
demote moves it), so scanning the user root finds no `notifier`. -/
theorem c9_counterexample :
    demoteItem "notifier" (some "notifier-1") false (c9State "U" "P" 1 2) 5 =
      .ok ({ item := { type := "agent", name := "notifier", path := "agents/notifier.md",
                       metadata := [], updated_at := 1 },
             fromDir := "~/.claude", toDir := ".claude",
             originalName := "notifier", newName := "notifier-1", renamed := true },
           { project := { skills := some []
                          agents := some [⟨"notifier.md", .file "P", 2⟩,
                                          ⟨"notifier-1.md", .file "U", 5⟩]
                          outputStyles := some [] }
             user := { skills := some [], agents := some [], outputStyles := some [] } }) ∧
    (scanItems { skills := some [], agents := some [], outputStyles := some [] }).find?
      (fun i => i.name == "notifier") = none :=
  ⟨rfl, rfl⟩

/-! ## Helper lemmas for the promote/demote round trip (C6) -/

theorem find?_none_of {α : Type} (l : List α) (p : α → Bool)
    (h : ∀ x ∈ l, ¬ p x = true) : l.find? p = none := by
  induction l with
  | nil => rfl
  | cons x rest ih =>
    rw [List.find?_cons_of_neg _ (h x (by simp))]
    exact ih (fun y hy => h y (by simp [hy]))

theorem scanDir_append_one (d : String) (es : List FsEntry) (x : FsEntry) (ix : Item)
    (hsx : scanEntry d x = some ix) :
    scanDir d (es ++ [x]) = scanDir d es ++ [ix] := by
  unfold scanDir
  rw [List.filterMap_append]
  simp [hsx]

theorem namesNodupB_append_one (es : List FsEntry) (x : FsEntry)
    (h : namesNodupB es = true) (habs : ∀ y ∈ es, ¬ y.name = x.name) :
    namesNodupB (es ++ [x]) = true := by
  induction es with
  | nil => rfl
  | cons z rest ih =>
    obtain ⟨hz, h2⟩ := namesNodupB_cons h
    have ih2 := ih h2 (fun y hy => habs y (by simp [hy]))
    show (!((rest ++ [x]).any (fun y => y.name == z.name)) && namesNodupB (rest ++ [x])) = true
    rw [Bool.and_eq_true]
    refine ⟨?_, ih2⟩
    rw [Bool.not_eq_true', List.any_eq_false]
    intro y hy
    rcases List.mem_append.mp hy with hy1 | hy2
    · simpa using hz y hy1
    · have hyx : y = x := by simpa using hy2
      have hne : ¬ z.name = x.name := habs z (by simp)
      rw [hyx]
      exact fun hb => hne (beq_string_iff.mp hb).symm

theorem mem_putEntryList_self (es : List FsEntry) (x : FsEntry) : x ∈ putEntryList es x := by
  induction es with
  | nil => exact List.mem_singleton.mpr rfl
  | cons z rest ih =>
    unfold putEntryList
    by_cases h : (z.name == x.name) = true
    · rw [if_pos h]
      exact List.mem_cons_self _ _
    · rw [if_neg h]
      exact List.mem_cons_of_mem _ ih

theorem mem_scanItems_cases {r : Root} {i : Item} (h : i ∈ scanItems r) :
    i ∈ scanDir "skills" (r.skills.getD []) ∨ i ∈ scanDir "agents" (r.agents.getD []) ∨
    i ∈ scanDir "output-styles" (r.outputStyles.getD []) := by
  unfold scanItems at h
  simp only [List.mem_append] at h
  tauto

theorem mem_scanItems_intro {r : Root} {i : Item}
    (h : i ∈ scanDir "skills" (r.skills.getD []) ∨ i ∈ scanDir "agents" (r.agents.getD []) ∨
         i ∈ scanDir "output-styles" (r.outputStyles.getD [])) : i ∈ scanItems r := by
  unfold scanItems
  simp only [List.mem_append]
  tauto

theorem root_get_set (d : String)
    (hd3 : d = "skills" ∨ d = "agents" ∨ d = "output-styles")
    (r : Root) (es : List FsEntry) : (r.set d es).get d = some es := by
  rcases hd3 with rfl | rfl | rfl <;> rfl

theorem root_set_set (d : String)
    (hd3 : d = "skills" ∨ d = "agents" ∨ d = "output-styles")
    (r : Root) (es1 es2 : List FsEntry) : (r.set d es1).set d es2 = r.set d es2 := by
  rcases hd3 with rfl | rfl | rfl <;> rfl

theorem root_set_self (d : String)
    (hd3 : d = "skills" ∨ d = "agents" ∨ d = "output-styles")
    (r : Root) (es : List FsEntry) (h : r.get d = some es) : r.set d es = r := by
  obtain ⟨s, a, o⟩ := r
  rcases hd3 with rfl | rfl | rfl
  · have h2 : s = some es := h
    subst h2
    rfl
  · have h2 : a = some es := h
    subst h2
    rfl
  · have h2 : o = some es := h
    subst h2
    rfl

/-- Writing a fresh entry into a settings directory appends its scanned
item after the directory's previous items, leaving the other
directories' items in place. -/
theorem scanItems_put_absent (d : String)
    (hd3 : d = "skills" ∨ d = "agents" ∨ d = "output-styles")
    (U : Root) (Ues : List FsEntry) (hUget : U.get d = some Ues)
    (x : FsEntry) (habs : ∀ y ∈ Ues, ¬ y.name = x.name)
    (ix : Item) (hsx : scanEntry d x = some ix) :
    ∃ L1 L2, scanItems (U.put d x) = L1 ++ ix :: L2 ∧ ∀ i ∈ L1, i ∈ scanItems U := by
  have hput : U.put d x = U.set d (Ues ++ [x]) := by
    unfold Root.put Root.entries
    rw [hUget, Option.getD_some]
    rw [putEntryList_absent Ues x habs]
  rcases hd3 with rfl | rfl | rfl
  · have hUs : U.skills = some Ues := hUget
    refine ⟨scanDir "skills" Ues,
      scanDir "agents" (U.agents.getD []) ++ scanDir "output-styles" (U.outputStyles.getD []),
      ?_, ?_⟩
    · rw [hput]
      show scanDir "skills" (Ues ++ [x]) ++ scanDir "agents" (U.agents.getD []) ++
        scanDir "output-styles" (U.outputStyles.getD []) = _
      rw [scanDir_append_one "skills" Ues x ix hsx]
      simp [List.append_assoc]
    · intro i hi
      exact mem_scanItems_intro (Or.inl (by rw [hUs, Option.getD_some]; exact hi))
  · have hUa : U.agents = some Ues := hUget
    refine ⟨scanDir "skills" (U.skills.getD []) ++ scanDir "agents" Ues,
      scanDir "output-styles" (U.outputStyles.getD []), ?_, ?_⟩
    · rw [hput]
      show scanDir "skills" (U.skills.getD []) ++ scanDir "agents" (Ues ++ [x]) ++
        scanDir "output-styles" (U.outputStyles.getD []) = _
      rw [scanDir_append_one "agents" Ues x ix hsx]
      simp [List.append_assoc]
    · intro i hi
      rcases List.mem_append.mp hi with h1 | h2
      · exact mem_scanItems_intro (Or.inl h1)
      · exact mem_scanItems_intro (Or.inr (Or.inl (by rw [hUa, Option.getD_some]; exact h2)))
  · have hUo : U.outputStyles = some Ues := hUget
    refine ⟨scanDir "skills" (U.skills.getD []) ++ scanDir "agents" (U.agents.getD []) ++
      scanDir "output-styles" Ues, [], ?_, ?_⟩
    · rw [hput]
      show scanDir "skills" (U.skills.getD []) ++ scanDir "agents" (U.agents.getD []) ++
        scanDir "output-styles" (Ues ++ [x]) = _
      rw [scanDir_append_one "output-styles" Ues x ix hsx]
      simp [List.append_assoc]
    · intro i hi
      simp only [List.mem_append] at hi
      rcases hi with (h1 | h2) | h3
      · exact mem_scanItems_intro (Or.inl h1)
      · exact mem_scanItems_intro (Or.inr (Or.inl h2))
      · exact mem_scanItems_intro (Or.inr (Or.inr (by rw [hUo, Option.getD_some]; exact h3)))

/-- Removing the entry that a `put` just wrote restores the root
exactly, provided the directory existed and held no same-named
entry. -/
theorem put_remove_restore (d : String)
    (hd3 : d = "skills" ∨ d = "agents" ∨ d = "output-styles")
    (U : Root) (Ues : List FsEntry) (hUget : U.get d = some Ues)
    (x : FsEntry) (habs : ∀ y ∈ Ues, ¬ y.name = x.name) :
    (U.put d x).removeName d x.name = U := by
  have hent : (U.put d x).get d = some (putEntryList ((U.get d).getD []) x) := by
    unfold Root.put Root.entries
    exact root_get_set d hd3 _ _
  have hput : putEntryList ((U.get d).getD []) x = Ues ++ [x] := by
    rw [hUget, Option.getD_some]
    exact putEntryList_absent Ues x habs
  have hfil : (Ues ++ [x]).filter (fun y => !(y.name == x.name)) = Ues := by
    rw [List.filter_append]
    have h1 : Ues.filter (fun y => !(y.name == x.name)) = Ues := by
      rw [List.filter_eq_self]
      intro y hy
      cases hb : (y.name == x.name) with
      | false => rfl
      | true => exact absurd (beq_string_iff.mp hb) (habs y hy)
    have h2 : List.filter (fun y => !(y.name == x.name)) [x] = [] := by
      simp
    rw [h1, h2, List.append_nil]
  unfold Root.removeName
  rw [hent]
  show (U.put d x).set d ((putEntryList ((U.get d).getD []) x).filter
    (fun y => !(y.name == x.name))) = U
  rw [hput, hfil]
  unfold Root.put
  rw [root_set_set d hd3]
  exact root_set_self d hd3 U Ues hUget

/-- After removing the source entry of a cleanly scanned item, the
project root holds no item of the same name and type: within its own
settings directory the key determines the entry name (which the filter
removed), and the other directories produce items of a different
type. -/
theorem itemExists_removeName_none (d : String)
    (hd3 : d = "skills" ∨ d = "agents" ∨ d = "output-styles")
    (P : Root) (e : FsEntry) (it : Item)
    (hPclean : cleanRoot P = true)
    (hce : entryCleanB d e = true)
    (hscan : scanEntry d e = some it) :
    itemExistsInTarget it.name it.type (P.removeName d e.name) = none := by
  have hPc := hPclean
  simp only [cleanRoot, Bool.and_eq_true] at hPc
  obtain ⟨⟨hcs, hca⟩, hco⟩ := hPc
  unfold itemExistsInTarget
  apply find?_none_of
  intro i hi hp
  rw [Bool.and_eq_true] at hp
  have hiname : i.name = it.name := beq_string_iff.mp hp.1
  have hitype : i.type = it.type := beq_string_iff.mp hp.2
  have hkey : itemKey i = itemKey it := by
    unfold itemKey
    rw [hiname, hitype]
  rcases hd3 with rfl | rfl | rfl
  · have htype : it.type = "skill" := (scanEntry_skills_char e hce it hscan).1
    cases hPg : P.skills with
    | none =>
      have hrm : P.removeName "skills" e.name = P := by
        unfold Root.removeName
        rw [show P.get "skills" = P.skills from rfl, hPg]
      rw [hrm] at hi
      rcases mem_scanItems_cases hi with h1 | h2 | h3
      · rw [hPg] at h1
        simp [scanDir] at h1
      · have hti := scanDir_type_mdfile "agents" (Or.inl rfl) _ (dirCleanB_all hca) i h2
        rw [hitype, htype] at hti
        exact absurd hti (by decide)
      · have hti := scanDir_type_mdfile "output-styles" (Or.inr rfl) _ (dirCleanB_all hco) i h3
        rw [hitype, htype] at hti
        exact absurd hti (by decide)
    | some Pes =>
      have hrm : P.removeName "skills" e.name =
          P.set "skills" (Pes.filter (fun y => !(y.name == e.name))) := by
        unfold Root.removeName
        rw [show P.get "skills" = P.skills from rfl, hPg]
      rw [hrm] at hi
      rcases mem_scanItems_cases hi with h1 | h2 | h3
      · have h1b : i ∈ scanDir "skills" (Pes.filter (fun y => !(y.name == e.name))) := h1
        obtain ⟨x, hx, hsx⟩ := mem_scanDir h1b
        have hx1 : x ∈ Pes := (List.mem_filter.mp hx).1
        have hx2 : (!(x.name == e.name)) = true := (List.mem_filter.mp hx).2
        have hcx : entryCleanB "skills" x = true :=
          dirCleanB_all hcs x (by rw [hPg, Option.getD_some]; exact hx1)
        have hnameeq := scanDir_key_inj_skills x e i it hcx hce hsx hscan hkey
        rw [hnameeq] at hx2
        simp at hx2
      · have h2b : i ∈ scanDir "agents" (P.agents.getD []) := h2
        have hti := scanDir_type_mdfile "agents" (Or.inl rfl) _ (dirCleanB_all hca) i h2b
        rw [hitype, htype] at hti
        exact absurd hti (by decide)
      · have h3b : i ∈ scanDir "output-styles" (P.outputStyles.getD []) := h3
        have hti := scanDir_type_mdfile "output-styles" (Or.inr rfl) _ (dirCleanB_all hco) i h3b
        rw [hitype, htype] at hti
        exact absurd hti (by decide)
  · have htype : it.type = "agent" :=
      (scanEntry_mdfile_char "agents" (Or.inl rfl) e hce it hscan).1
    cases hPg : P.agents with
    | none =>
      have hrm : P.removeName "agents" e.name = P := by
        unfold Root.removeName
        rw [show P.get "agents" = P.agents from rfl, hPg]
      rw [hrm] at hi
      rcases mem_scanItems_cases hi with h1 | h2 | h3
      · have hti := scanDir_type_skills _ (dirCleanB_all hcs) i h1
        rw [hitype, htype] at hti
        exact absurd hti (by decide)
      · rw [hPg] at h2
        simp [scanDir] at h2
      · have hti := scanDir_type_mdfile "output-styles" (Or.inr rfl) _ (dirCleanB_all hco) i h3
        rw [hitype, htype] at hti
        exact absurd hti (by decide)
    | some Pes =>
      have hrm : P.removeName "agents" e.name =
          P.set "agents" (Pes.filter (fun y => !(y.name == e.name))) := by
        unfold Root.removeName
        rw [show P.get "agents" = P.agents from rfl, hPg]
      rw [hrm] at hi
      rcases mem_scanItems_cases hi with h1 | h2 | h3
      · have h1b : i ∈ scanDir "skills" (P.skills.getD []) := h1
        have hti := scanDir_type_skills _ (dirCleanB_all hcs) i h1b
        rw [hitype, htype] at hti
        exact absurd hti (by decide)
      · have h2b : i ∈ scanDir "agents" (Pes.filter (fun y => !(y.name == e.name))) := h2
        obtain ⟨x, hx, hsx⟩ := mem_scanDir h2b
        have hx1 : x ∈ Pes := (List.mem_filter.mp hx).1
        have hx2 : (!(x.name == e.name)) = true := (List.mem_filter.mp hx).2
        have hcx : entryCleanB "agents" x = true :=
          dirCleanB_all hca x (by rw [hPg, Option.getD_some]; exact hx1)
        have hnameeq := scanDir_key_inj_mdfile "agents" (Or.inl rfl) x e i it hcx hce hsx hscan hkey
        rw [hnameeq] at hx2
        simp at hx2
      · have h3b : i ∈ scanDir "output-styles" (P.outputStyles.getD []) := h3
        have hti := scanDir_type_mdfile "output-styles" (Or.inr rfl) _ (dirCleanB_all hco) i h3b
        rw [hitype, htype] at hti
        exact absurd hti (by decide)
  · have htype : it.type = "output-style" :=
      (scanEntry_mdfile_char "output-styles" (Or.inr rfl) e hce it hscan).1
    cases hPg : P.outputStyles with
    | none =>
      have hrm : P.removeName "output-styles" e.name = P := by
        unfold Root.removeName
        rw [show P.get "output-styles" = P.outputStyles from rfl, hPg]
      rw [hrm] at hi
      rcases mem_scanItems_cases hi with h1 | h2 | h3
      · have hti := scanDir_type_skills _ (dirCleanB_all hcs) i h1
        rw [hitype, htype] at hti
        exact absurd hti (by decide)
      · have hti := scanDir_type_mdfile "agents" (Or.inl rfl) _ (dirCleanB_all hca) i h2
        rw [hitype, htype] at hti
        exact absurd hti (by decide)
      · rw [hPg] at h3
        simp [scanDir] at h3
    | some Pes =>
      have hrm : P.removeName "output-styles" e.name =
          P.set "output-styles" (Pes.filter (fun y => !(y.name == e.name))) := by
        unfold Root.removeName
        rw [show P.get "output-styles" = P.outputStyles from rfl, hPg]
      rw [hrm] at hi
      rcases mem_scanItems_cases hi with h1 | h2 | h3
      · have h1b : i ∈ scanDir "skills" (P.skills.getD []) := h1
        have hti := scanDir_type_skills _ (dirCleanB_all hcs) i h1b
        rw [hitype, htype] at hti
        exact absurd hti (by decide)
      · have h2b : i ∈ scanDir "agents" (P.agents.getD []) := h2
        have hti := scanDir_type_mdfile "agents" (Or.inl rfl) _ (dirCleanB_all hca) i h2b
        rw [hitype, htype] at hti
        exact absurd hti (by decide)
      · have h3b : i ∈ scanDir "output-styles" (Pes.filter (fun y => !(y.name == e.name))) := h3
        obtain ⟨x, hx, hsx⟩ := mem_scanDir h3b
        have hx1 : x ∈ Pes := (List.mem_filter.mp hx).1
        have hx2 : (!(x.name == e.name)) = true := (List.mem_filter.mp hx).2
        have hcx : entryCleanB "output-styles" x = true :=
          dirCleanB_all hco x (by rw [hPg, Option.getD_some]; exact hx1)
        have hnameeq := scanDir_key_inj_mdfile "output-styles" (Or.inr rfl) x e i it
          hcx hce hsx hscan hkey
        rw [hnameeq] at hx2
        simp at hx2

/-! ## Claim C6 -/

/-- Claim C6 (amended): for a *clean* item of the project root (its
frontmatter does not override the derived `type`/`name`/`path`, its
file name carries `".md"` only as the final extension, the project root
is clean) whose destination settings directory exists and holds no
same-named entry, and with no item of the same name anywhere in the
user root, `promote(name)` followed by `demote(name)` (no force, no
rename) succeeds and restores the state: the user root is returned
*exactly* to its original value, and the entry is back in its project
settings directory with the same name and contents (only its mtime is
the demote time), scanning to the original item up to `updated_at`.
Without the cleanliness condition the round trip can fail outright
(`c6_counterexample`): a frontmatter `type:` override makes promote
file the copy under the overridden type's directory, where the scanner
no longer finds it and demote throws Not-Found. -/
theorem c6_promote_demote_roundtrip (d : String)
    (hd3 : d = "skills" ∨ d = "agents" ∨ d = "output-styles")
    (P U : Root) (Ues : List FsEntry) (e : FsEntry) (it : Item) (now1 now2 : Nat)
    (hfindP : (scanItems P).find? (fun i => i.name == it.name) = some it)
    (he : e ∈ P.entries d)
    (hscan : scanEntry d e = some it)
    (hPclean : cleanRoot P = true)
    (hUget : U.get d = some Ues)
    (hnodupU : namesNodupB Ues = true)
    (hUname : ∀ i ∈ scanItems U, ¬ i.name = it.name)
    (hUabs : ∀ y ∈ Ues, ¬ y.name = e.name) :
    promoteItem it.name none false { project := P, user := U } now1 =
      .ok ({ item := it, fromDir := ".claude", toDir := "~/.claude",
             originalName := it.name, newName := it.name, renamed := false },
           { project := P.removeName d e.name, user := U.put d ⟨e.name, e.node, now1⟩ }) ∧
    demoteItem it.name none false
      { project := P.removeName d e.name, user := U.put d ⟨e.name, e.node, now1⟩ } now2 =
      .ok ({ item := { it with updated_at := now1 }, fromDir := "~/.claude", toDir := ".claude",
             originalName := it.name, newName := it.name, renamed := false },
           { project := (P.removeName d e.name).put d ⟨e.name, e.node, now2⟩,
             user := U }) ∧
    scanEntry d ⟨e.name, e.node, now2⟩ = some { it with updated_at := now2 } ∧
    (⟨e.name, e.node, now2⟩ : FsEntry) ∈
      ((P.removeName d e.name).put d ⟨e.name, e.node, now2⟩).entries d := by
  have hPc := hPclean
  simp only [cleanRoot, Bool.and_eq_true] at hPc
  obtain ⟨⟨hcs, hca⟩, hco⟩ := hPc
  have hdc : dirCleanB d (P.entries d) = true := by
    rcases hd3 with rfl | rfl | rfl
    · exact hcs
    · exact hca
    · exact hco
  have hce : entryCleanB d e = true := dirCleanB_all hdc e he
  have hnodupP : namesNodupB (P.entries d) = true := by
    unfold dirCleanB at hdc
    rw [Bool.and_eq_true] at hdc
    exact hdc.1
  have hconfU : itemExistsInTarget it.name it.type U = none := by
    unfold itemExistsInTarget
    apply find?_none_of
    intro i hi hp
    rw [Bool.and_eq_true] at hp
    exact hUname i hi (beq_string_iff.mp hp.1)
  have hprom := promote_clean_step d hd3 P U e it now1 hfindP he hnodupP hce hscan hconfU
  refine ⟨hprom, ?_, scanEntry_set_mtime d e it now2 hscan, ?_⟩
  · have hscan1 : scanEntry d ⟨e.name, e.node, now1⟩ = some { it with updated_at := now1 } :=
      scanEntry_set_mtime d e it now1 hscan
    have hfindU1 : (scanItems (U.put d ⟨e.name, e.node, now1⟩)).find?
        (fun i => i.name == it.name) = some { it with updated_at := now1 } := by
      obtain ⟨L1, L2, hsc, hsub⟩ := scanItems_put_absent d hd3 U Ues hUget
        ⟨e.name, e.node, now1⟩ hUabs _ hscan1
      rw [hsc]
      rw [find?_append_right _ _ _
        (fun i hi hp => hUname i (hsub i hi) (beq_string_iff.mp hp))]
      exact List.find?_cons_of_pos _ (beq_self_eq_true it.name)
    have hent1 : (U.put d ⟨e.name, e.node, now1⟩).entries d =
        Ues ++ [⟨e.name, e.node, now1⟩] := by
      unfold Root.put Root.entries
      rw [root_get_set d hd3, Option.getD_some, hUget, Option.getD_some]
      exact putEntryList_absent Ues _ hUabs
    have hnodupU1 : namesNodupB ((U.put d ⟨e.name, e.node, now1⟩).entries d) = true := by
      rw [hent1]
      exact namesNodupB_append_one Ues _ hnodupU hUabs
    have heU1 : (⟨e.name, e.node, now1⟩ : FsEntry) ∈
        (U.put d ⟨e.name, e.node, now1⟩).entries d := by
      rw [hent1]
      exact List.mem_append_right _ (List.mem_singleton.mpr rfl)
    have hceU1 : entryCleanB d ⟨e.name, e.node, now1⟩ = true := hce
    have hconfP1 : itemExistsInTarget it.name it.type (P.removeName d e.name) = none :=
      itemExists_removeName_none d hd3 P e it hPclean hce hscan
    have hdem := demote_clean_step d hd3 (P.removeName d e.name)
      (U.put d ⟨e.name, e.node, now1⟩) ⟨e.name, e.node, now1⟩
      { it with updated_at := now1 } now2 hfindU1 heU1 hnodupU1 hceU1 hscan1 hconfP1
    dsimp only at hdem
    rw [put_remove_restore d hd3 U Ues hUget ⟨e.name, e.node, now1⟩ hUabs] at hdem
    exact hdem
  · unfold Root.put Root.entries
    rw [root_get_set d hd3, Option.getD_some]
    exact mem_putEntryList_self _ _

/-- Witness for C6: a clean agent `w` in the project root, empty user
root; promote then demote round-trips. -/
theorem c6_witness :
    promoteItem "w" none false { project := c6wP, user := emptyRoot } 10 =
      .ok ({ item := { type := "agent", name := "w", path := "agents/w.md",
                       metadata := [], updated_at := 3 },
             fromDir := ".claude", toDir := "~/.claude",
             originalName := "w", newName := "w", renamed := false },
           { project := c6wP.removeName "agents" "w.md",
             user := emptyRoot.put "agents" ⟨"w.md", .file "hello", 10⟩ }) ∧
    demoteItem "w" none false
      { project := c6wP.removeName "agents" "w.md",
        user := emptyRoot.put "agents" ⟨"w.md", .file "hello", 10⟩ } 11 =
      .ok ({ item := { type := "agent", name := "w", path := "agents/w.md",
                       metadata := [], updated_at := 10 },
             fromDir := "~/.claude", toDir := ".claude",
             originalName := "w", newName := "w", renamed := false },
           { project := (c6wP.removeName "agents" "w.md").put "agents"
               ⟨"w.md", .file "hello", 11⟩,
             user := emptyRoot }) ∧
    scanEntry "agents" ⟨"w.md", .file "hello", 11⟩ =
      some { type := "agent", name := "w", path := "agents/w.md",
             metadata := [], updated_at := 11 } ∧
    (⟨"w.md", .file "hello", 11⟩ : FsEntry) ∈
      ((c6wP.removeName "agents" "w.md").put "agents"
        ⟨"w.md", .file "hello", 11⟩).entries "agents" :=
  c6_promote_demote_roundtrip "agents" (Or.inr (Or.inl rfl)) c6wP emptyRoot []
    ⟨"w.md", .file "hello", 3⟩
    { type := "agent", name := "w", path := "agents/w.md", metadata := [], updated_at := 3 }
    10 11 rfl (by decide) rfl rfl rfl rfl
    (fun i hi => absurd hi (List.not_mem_nil i))
    (fun y hy => absurd hy (List.not_mem_nil y))

/-- Counterexample to C6 as stated: the project item `a` (an agent file
whose frontmatter overrides `type` to `skill`) has no conflicting item
in either root; `promote("a")` succeeds, but files the copy as a plain
file `a` in the user `skills/` directory, which the scanner does not
recognise, so the immediate `demote("a")` throws Not-Found instead of
restoring the item. -/
theorem c6_counterexample :
    promoteItem "a" none false { project := c6Root, user := emptyRoot } 7 =
      .ok ({ item := { type := "skill", name := "a", path := "agents/a.md",
                       metadata := [("type", "skill")], updated_at := 0 },
             fromDir := ".claude", toDir := "~/.claude",
             originalName := "a", newName := "a", renamed := false },
           { project := { skills := some [], agents := some [], outputStyles := some [] },
             user := { skills := some [⟨"a", .file "---\ntype: skill\n---\nhi", 7⟩],
                       agents := some [], outputStyles := some [] } }) ∧
    demoteItem "a" none false
      { project := { skills := some [], agents := some [], outputStyles := some [] },
        user := { skills := some [⟨"a", .file "---\ntype: skill\n---\nhi", 7⟩],
                  agents := some [], outputStyles := some [] } } 8 =
      .error "Item \"a\" not found in user (~/.claude)" :=
  ⟨rfl, rfl⟩

end Clsync
